import Mathlib

/-!
# Verification of the `latency_sysdiff` snapshot comparator

This file embeds the core of `latency_sysdump/latency_sysdiff.py` — the
flattener, the severity classifier, the structural-change detector and the
diff engine — as executable Lean definitions over a JSON-like value type,
and proves or refutes the specification claims about them.

Python scalars are modelled by `Scalar` (JSON null, booleans, integers and
strings); nested documents by `Value`.  Python's `==` on these scalars is
modelled by `pyEq` (note `True == 1` and `False == 0` in Python), `str()` by
`pyStr`, and truthiness by `pyTruthy`.
-/

/-- A scalar leaf value of a JSON document as handled by the Python code:
`None`, `bool`, `int` or `str`.  (Floating point numbers are outside the
scope of this embedding.) -/
inductive Scalar where
  | null
  | bool (b : Bool)
  | int (n : Int)
  | str (s : String)
deriving DecidableEq, Repr

/-- A JSON document value: a scalar, an ordered sequence, or a string-keyed
mapping in insertion order (Python dicts preserve insertion order). -/
inductive Value where
  | scalar (s : Scalar)
  | list (xs : List Value)
  | dict (kvs : List (String × Value))
deriving Repr

mutual

def decEqValue : (a b : Value) → Decidable (a = b)
  | .scalar a, .scalar b =>
    match decEq a b with
    | isTrue h => isTrue (by rw [h])
    | isFalse h => isFalse (by intro hh; cases hh; exact h rfl)
  | .scalar _, .list _ => isFalse nofun
  | .scalar _, .dict _ => isFalse nofun
  | .list _, .scalar _ => isFalse nofun
  | .list xs, .list ys =>
    match decEqValueList xs ys with
    | isTrue h => isTrue (by rw [h])
    | isFalse h => isFalse (by intro hh; cases hh; exact h rfl)
  | .list _, .dict _ => isFalse nofun
  | .dict _, .scalar _ => isFalse nofun
  | .dict _, .list _ => isFalse nofun
  | .dict xs, .dict ys =>
    match decEqValueFields xs ys with
    | isTrue h => isTrue (by rw [h])
    | isFalse h => isFalse (by intro hh; cases hh; exact h rfl)

def decEqValueList : (a b : List Value) → Decidable (a = b)
  | [], [] => isTrue rfl
  | [], _ :: _ => isFalse nofun
  | _ :: _, [] => isFalse nofun
  | x :: xs, y :: ys =>
    match decEqValue x y, decEqValueList xs ys with
    | isTrue h1, isTrue h2 => isTrue (by rw [h1, h2])
    | isFalse h1, _ => isFalse (by intro hh; cases hh; exact h1 rfl)
    | _, isFalse h2 => isFalse (by intro hh; cases hh; exact h2 rfl)

def decEqValueFields : (a b : List (String × Value)) → Decidable (a = b)
  | [], [] => isTrue rfl
  | [], _ :: _ => isFalse nofun
  | _ :: _, [] => isFalse nofun
  | (k1, v1) :: xs, (k2, v2) :: ys =>
    match decEq k1 k2, decEqValue v1 v2, decEqValueFields xs ys with
    | isTrue h0, isTrue h1, isTrue h2 => isTrue (by rw [h0, h1, h2])
    | isFalse h0, _, _ => isFalse (by intro hh; cases hh; exact h0 rfl)
    | _, isFalse h1, _ => isFalse (by intro hh; cases hh; exact h1 rfl)
    | _, _, isFalse h2 => isFalse (by intro hh; cases hh; exact h2 rfl)

end

instance : DecidableEq Value := decEqValue

/-- Python truthiness (`bool(v)`) of a value. -/
def pyTruthy : Value → Bool
  | .scalar .null => false
  | .scalar (.bool b) => b
  | .scalar (.int n) => n ≠ 0
  | .scalar (.str s) => s ≠ ""
  | .list xs => !xs.isEmpty
  | .dict kvs => !kvs.isEmpty

/-- Python `==` on scalars.  `None` equals only `None`; strings equal only
equal strings; and numeric cross-type equality makes `True == 1` and
`False == 0`. -/
def pyEq : Scalar → Scalar → Bool
  | .null, .null => true
  | .bool a, .bool b => a = b
  | .bool a, .int n => (if a then (1 : Int) else 0) = n
  | .int n, .bool b => n = (if b then (1 : Int) else 0)
  | .int m, .int n => m = n
  | .str s, .str t => s = t
  | _, _ => false

/-- Python `str()` of a scalar: `None ↦ "None"`, `True ↦ "True"`,
`False ↦ "False"`, integers in decimal, strings unchanged. -/
def pyStr : Scalar → String
  | .null => "None"
  | .bool true => "True"
  | .bool false => "False"
  | .int n => toString n
  | .str s => s

/-- Python substring test `sub in s` (contiguous substring). -/
def pyIn (sub s : String) : Bool :=
  decide (sub.data <:+: s.data)

/-- `value_changed` from the source: Python `a != b`. -/
def value_changed (a b : Scalar) : Bool :=
  !(pyEq a b)

/-- `SEV_ORDER.get(sev, 99)` from the source. -/
def sevRank (s : String) : Nat :=
  if s = "CRITICAL" then 0 else if s = "WARNING" then 1
  else if s = "INFO" then 2 else 99

/-- `category_of` from the source: the substring of the path before the
first `.` (the whole path when it has no `.`). -/
def category_of (p : String) : String :=
  String.mk (p.data.takeWhile (· ≠ '.'))

example : category_of "network.interfaces.eth0.mtu" = "network" := by decide
example : category_of "kernel" = "kernel" := by decide

/-- Python `s.startswith(pre)`. -/
def strStarts (pre s : String) : Bool :=
  pre.data.isPrefixOf s.data

/-- Python `s.endswith(suf)`. -/
def strEnds (suf s : String) : Bool :=
  suf.data.isSuffixOf s.data

/-- Python `s.lower()` (ASCII case folding, which is all the classifier
needs for governor names). -/
def strToLower (s : String) : String :=
  String.mk (s.data.map Char.toLower)

/-- Lexicographic comparison of character lists by code point, the order
Python's `sorted` uses on strings. -/
def charsLe : List Char → List Char → Bool
  | [], _ => true
  | _ :: _, [] => false
  | a :: as, b :: bs =>
    if a.toNat < b.toNat then true
    else if a.toNat = b.toNat then charsLe as bs
    else false

/-- Python string `≤` (lexicographic by code point). -/
def strLe (a b : String) : Bool :=
  charsLe a.data b.data

/-- `strLe` as a relation. -/
def strLeRel (a b : String) : Prop :=
  strLe a b = true

instance : DecidableRel strLeRel := fun a b =>
  inferInstanceAs (Decidable (strLe a b = true))

/-- Python `sorted` on a list of strings.  Python's `sorted` is a stable
sort, and a stable sort is a unique function of the input list and the
comparison, so the structurally-recursive insertion sort (which is stable)
is the same function. -/
def sortStr (l : List String) : List String :=
  List.insertionSort strLeRel l

/-! ## The flattener (`flatten` in the source) -/

/-- The address built for dict key `k` under prefix `pre`:
`f"{prefix}.{k}" if prefix else str(k)`. -/
def addrKey (pre k : String) : String :=
  if pre = "" then k else pre ++ "." ++ k

/-- The address built for sequence index `i` under prefix `pre`:
`f"{prefix}[{i}]"`. -/
def addrIdx (pre : String) (i : Nat) : String :=
  pre ++ "[" ++ toString i ++ "]"

/-- One step of Python `dict` assignment on an association list: overwrite
in place when the key is present, append otherwise. -/
def updOne (res : List (String × Scalar)) (k : String) (v : Scalar) :
    List (String × Scalar) :=
  if res.any (fun p => p.1 = k) then
    res.map (fun p => if p.1 = k then (k, v) else p)
  else res ++ [(k, v)]

/-- Python `res.update(extra)` on association lists. -/
def dictUpdate (res extra : List (String × Scalar)) : List (String × Scalar) :=
  extra.foldl (fun r p => updOne r p.1 p.2) res

mutual

/-- `flatten` from the source: recursively flatten a document into a map
from address strings to scalar leaves, accumulating with `res.update`. -/
def flatten : Value → String → List (String × Scalar)
  | .scalar s, pre => [(pre, s)]
  | .dict kvs, pre => flattenFields kvs pre []
  | .list xs, pre => flattenElems xs 0 pre []

/-- The `for k, v in d.items(): res.update(flatten(v, key))` loop. -/
def flattenFields :
    List (String × Value) → String → List (String × Scalar) → List (String × Scalar)
  | [], _, res => res
  | (k, v) :: rest, pre, res =>
    flattenFields rest pre (dictUpdate res (flatten v (addrKey pre k)))

/-- The `for i, v in enumerate(d): res.update(flatten(v, key))` loop. -/
def flattenElems :
    List Value → Nat → String → List (String × Scalar) → List (String × Scalar)
  | [], _, _, res => res
  | v :: rest, i, pre, res =>
    flattenElems rest (i + 1) pre (dictUpdate res (flatten v (addrIdx pre i)))

end

example : flatten (.dict [("a", .dict [("b", .scalar (.int 1))]),
    ("c", .list [.scalar (.int 2), .dict [("d", .scalar (.int 3))]])]) "" =
    [("a.b", .int 1), ("c[0]", .int 2), ("c[1].d", .int 3)] := by decide

/-! ## Integer parsing (`parse_int` in the source)

`parse_int(v)` is `int(str(v).strip(), 0)` guarded by `try/except`: Python
base-0 integer literal syntax — an optional sign, then a decimal literal
with no leading zero (or a run of zeros), or a `0x`/`0o`/`0b` prefixed
literal, with single underscores allowed between digits (and after the
prefix). -/

/-- The whitespace characters stripped by Python `str.strip()` (ASCII). -/
def isPyWs (c : Char) : Bool :=
  c = ' ' || c = '\t' || c = '\n' || c = '\r' || c = '\x0b' || c = '\x0c'

/-- Python `str.strip()`. -/
def stripChars (l : List Char) : List Char :=
  ((l.dropWhile isPyWs).reverse.dropWhile isPyWs).reverse

/-- Value of a decimal digit character. -/
def decVal (c : Char) : Option Nat :=
  if 48 ≤ c.toNat && c.toNat ≤ 57 then some (c.toNat - 48) else none

/-- Value of a hexadecimal digit character. -/
def hexVal (c : Char) : Option Nat :=
  if 48 ≤ c.toNat && c.toNat ≤ 57 then some (c.toNat - 48)
  else if 97 ≤ c.toNat && c.toNat ≤ 102 then some (c.toNat - 87)
  else if 65 ≤ c.toNat && c.toNat ≤ 70 then some (c.toNat - 55)
  else none

/-- Value of an octal digit character. -/
def octVal (c : Char) : Option Nat :=
  if 48 ≤ c.toNat && c.toNat ≤ 55 then some (c.toNat - 48) else none

/-- Value of a binary digit character. -/
def binVal (c : Char) : Option Nat :=
  if c = '0' then some 0 else if c = '1' then some 1 else none

/-- Consume `("_"? digit)*` after at least one digit was read, anchored to
the end of the input; underscores must sit between digits. -/
def digitRunGo (dv : Char → Option Nat) : List Char → List Nat → Option (List Nat)
  | [], acc => some acc.reverse
  | '_' :: c :: cs, acc =>
    match dv c with
    | some v => digitRunGo dv cs (v :: acc)
    | none => none
  | ['_'], _ => none
  | c :: cs, acc =>
    match dv c with
    | some v => digitRunGo dv cs (v :: acc)
    | none => none

/-- Match `digit ("_"? digit)*` against the whole input. -/
def digitRun (dv : Char → Option Nat) : List Char → Option (List Nat)
  | [] => none
  | c :: cs =>
    match dv c with
    | some v => digitRunGo dv cs [v]
    | none => none

/-- Match `("_"? digit)+` against the whole input (a single underscore may
follow a `0x`/`0o`/`0b` prefix). -/
def prefixedDigits (dv : Char → Option Nat) : List Char → Option (List Nat)
  | '_' :: rest => digitRun dv rest
  | l => digitRun dv l

/-- Numeric value of a digit sequence in the given base. -/
def digitsVal (base : Nat) (ds : List Nat) : Nat :=
  ds.foldl (fun a d => a * base + d) 0

/-- Parse the unsigned part of a Python base-0 integer literal. -/
def pyIntBody : List Char → Option Nat
  | '0' :: c :: rest =>
    if c = 'x' || c = 'X' then (prefixedDigits hexVal rest).map (digitsVal 16)
    else if c = 'o' || c = 'O' then (prefixedDigits octVal rest).map (digitsVal 8)
    else if c = 'b' || c = 'B' then (prefixedDigits binVal rest).map (digitsVal 2)
    else
      match digitRun decVal ('0' :: c :: rest) with
      | some ds => if ds.all (· = 0) then some 0 else none
      | none => none
  | l =>
    match digitRun decVal l with
    | some ds =>
      if ds.headD 0 = 0 ∧ ¬ ds.all (· = 0) then none else some (digitsVal 10 ds)
    | none => none

/-- Python `int(s, 0)` on a stripped string. -/
def pyIntBase0 (s : String) : Option Int :=
  match stripChars s.data with
  | '+' :: rest => (pyIntBody rest).map (fun n => (n : Int))
  | '-' :: rest => (pyIntBody rest).map (fun n => -(n : Int))
  | rest => (pyIntBody rest).map (fun n => (n : Int))

/-- `parse_int` from the source: `int(str(v).strip(), 0)`, `None` when the
conversion raises. -/
def parse_int (v : Scalar) : Option Int :=
  pyIntBase0 (pyStr v)

example : parse_int (.str "512") = some 512 := by decide
example : parse_int (.str " 0x20 ") = some 32 := by decide
example : parse_int (.str "-12") = some (-12) := by decide
example : parse_int (.int 60) = some 60 := by decide
example : parse_int (.str "0o17") = some 15 := by decide
example : parse_int (.str "0b101") = some 5 := by decide
example : parse_int (.str "1_0") = some 10 := by decide
example : parse_int (.str "010") = none := by decide
example : parse_int (.str "00") = some 0 := by decide
example : parse_int (.str "") = none := by decide
example : parse_int (.bool true) = none := by decide
example : parse_int .null = none := by decide
example : parse_int (.str "performance") = none := by decide
example : parse_int (.str "0x_ff") = some 255 := by decide
example : parse_int (.str "0_0") = some 0 := by decide
example : parse_int (.str "_1") = none := by decide
example : parse_int (.str "1_") = none := by decide
example : parse_int (.str "1__2") = none := by decide
example : parse_int (.str "0x") = none := by decide
example : parse_int (.str "+5") = some 5 := by decide
example : parse_int (.str "- 5") = none := by decide
example : parse_int (.str "0X1F") = some 31 := by decide
example : parse_int (.str "0B_1") = some 1 := by decide
example : parse_int (.str "0o8") = none := by decide

/-! ## The severity classifier (`severity_of` in the source)

An ordered chain of rules, first match wins.  The context dict carries the
single boolean flag `irq_affinity_present`, modelled here as a `Bool`
parameter. -/

/-- The fixed set of latency-critical offload feature name fragments. -/
def critFeats : List String :=
  ["generic-receive-offload", "large-receive-offload", "tcp-segmentation-offload",
   "tso", "gso", "lro", "rx-checksumming", "tx-checksumming", "scatter-gather"]

/-- The suffix of `s` after the first occurrence of `sep` (the source's
`p.split(sep, 1)[1]`; only reached under a guard that `sep` occurs). -/
def afterFirst (sep : List Char) : List Char → List Char
  | [] => []
  | c :: cs =>
    if sep.isPrefixOf (c :: cs) then (c :: cs).drop sep.length
    else afterFirst sep cs

/-- `p.split(sep, 1)[1]` from the source, as a `String` operation. -/
def splitAfterFirst (sep p : String) : String :=
  String.mk (afterFirst sep.data p.data)

example : splitAfterFirst ".ethtool.features." "network.interfaces.eth0.ethtool.features.tso"
    = "tso" := by decide

/-- `severity_of` from the source: the ordered rule chain mapping a changed
leaf (path, old, new, context) to a severity and an optional note. -/
def severity_of (p : String) (old new : Scalar) (irq_affinity_present : Bool) :
    String × Option String :=
  if p = "kernel.uname.release" then ("CRITICAL", none)
  else if p = "kernel.cmdline" then ("CRITICAL", none)
  else if p = "timekeeping.clocksource_current" then ("CRITICAL", none)
  else if p = "cpu_topology.smt_active" then ("CRITICAL", none)
  else if strStarts "cpu_topology.per_cpu_governors." p then
    if (if new = .null then "" else strToLower (pyStr new)) != "" &&
        (if new = .null then "" else strToLower (pyStr new)) != "performance" then
      ("CRITICAL", some "governor != performance")
    else ("WARNING", none)
  else if p = "cpu_topology.lscpu_hash" then ("CRITICAL", some "CPU topology changed")
  else if p = "memory.transparent_hugepage.enabled" then ("CRITICAL", none)
  else if strStarts "irq.smp_affinity_list." p then ("CRITICAL", none)
  else if strStarts "network.interfaces." p && pyIn ".ethtool.features." p then
    if critFeats.any (fun f => pyIn f (splitAfterFirst ".ethtool.features." p)) then
      ("CRITICAL", none)
    else ("WARNING", none)
  else if strStarts "network.interfaces." p && pyIn ".ethtool.rings." p then
    match parse_int old, parse_int new with
    | some o, some n => if n < o then ("CRITICAL", some "ring size reduced") else ("INFO", none)
    | _, _ => ("INFO", none)
  else if strStarts "network.interfaces." p && pyIn ".ethtool.channels." p then
    match parse_int old, parse_int new with
    | some o, some n => if n < o then ("CRITICAL", some "channels reduced") else ("INFO", none)
    | _, _ => ("INFO", none)
  else if strStarts "network.interfaces." p && pyIn ".ethtool.coalesce." p then
    match parse_int old, parse_int new with
    | some o, some n =>
      if 32 ≤ (n - o).natAbs then ("CRITICAL", some "coalesce changed drastically")
      else ("WARNING", none)
    | _, _ => ("WARNING", none)
  else if p = "toolchain.libstdcxx_max_glibcxx" then
    ("CRITICAL", some "libstdc++ ABI level changed")
  else if p = "services_sysctl.irqbalance.state" then
    if irq_affinity_present then ("CRITICAL", some "irqbalance change with IRQ pinning")
    else ("WARNING", none)
  else if p == "memory.overcommit_memory" || p == "memory.swappiness" then ("WARNING", none)
  else if strStarts "memory.ksm." p then ("WARNING", none)
  else if strEnds ".mtu" p && strStarts "network.interfaces." p then ("WARNING", none)
  else if strStarts "toolchain." p then ("WARNING", none)
  else if strStarts "network.routes." p then ("WARNING", none)
  else if strStarts "services_sysctl.sysctl." p then ("WARNING", none)
  else if strStarts "timekeeping.ptp_devices" p then ("INFO", none)
  else if strStarts "network.interfaces." p then ("INFO", none)
  else if strStarts "containers." p then ("INFO", none)
  else ("INFO", none)

example : severity_of "kernel.uname.release" (.str "5.10") (.str "6.1") false
    = ("CRITICAL", none) := by decide
example : severity_of "cpu_topology.per_cpu_governors.cpu0" (.str "performance")
    (.str "powersave") false = ("CRITICAL", some "governor != performance") := by decide
example : severity_of "cpu_topology.per_cpu_governors.cpu0" (.str "powersave")
    (.str "performance") false = ("WARNING", none) := by decide
example : severity_of "network.interfaces.eth0.ethtool.rings.rx" (.str "512")
    (.str "256") false = ("CRITICAL", some "ring size reduced") := by decide
example : severity_of "network.interfaces.eth0.ethtool.rings.rx" (.str "256")
    (.str "512") false = ("INFO", none) := by decide
example : severity_of "network.interfaces.eth0.ethtool.coalesce.rx-usecs" (.str "10")
    (.str "50") false = ("CRITICAL", some "coalesce changed drastically") := by decide
example : severity_of "network.interfaces.eth0.ethtool.coalesce.rx-usecs" (.str "10")
    (.str "30") false = ("WARNING", none) := by decide
example : severity_of "network.interfaces.eth0.ethtool.features.tcp-segmentation-offload"
    (.bool true) (.bool false) false = ("CRITICAL", none) := by decide

/-! ## Context and structural detection -/

/-- Python `x or {}`: `x` if truthy, else an empty dict. -/
def orEmptyDict (o : Option Value) : Value :=
  match o with
  | some v => if pyTruthy v then v else .dict []
  | none => .dict []

/-- `compute_irq_affinity_present` from the source:
`bool((d.get("irq") or {}).get("smp_affinity_list") or {})` with the
`AttributeError` on non-dict intermediates caught and turned into `False`. -/
def compute_irq_affinity_present (d : Value) : Bool :=
  match d with
  | .dict kvs =>
    match orEmptyDict (kvs.lookup "irq") with
    | .dict irqkvs => pyTruthy (orEmptyDict (irqkvs.lookup "smp_affinity_list"))
    | _ => false
  | _ => false

/-- The interface-name keys `((d.get("network") or {}).get("interfaces") or {}).keys()`
from `diff_dumps`.  Here the `AttributeError` raised on truthy non-dict
intermediates is *not* caught by the source, hence the `Option`. -/
def ifaceKeys (d : Value) : Option (List String) :=
  match d with
  | .dict kvs =>
    match orEmptyDict (kvs.lookup "network") with
    | .dict nkvs =>
      match orEmptyDict (nkvs.lookup "interfaces") with
      | .dict ikvs => some (ikvs.map Prod.fst)
      | _ => none
    | _ => none
  | _ => none

/-- `sorted(set(a) - set(b))` on interface-name lists. -/
def sortedSetDiff (a b : List String) : List String :=
  sortStr ((a.filter (fun n => !b.contains n)).dedup)

/-! ## The diff engine (`diff_dumps` in the source) -/

/-- One diff entry, the dict
`{path: ..., old: ..., new: ..., severity: ..., note: ...}` built by
`diff_dumps` (the `note` key is always present, `None` when no rule note). -/
structure DiffEntry where
  path : String
  old : Scalar
  new : Scalar
  severity : String
  note : Option String
deriving DecidableEq, Repr

instance : Inhabited DiffEntry :=
  ⟨⟨"", .null, .null, "", none⟩⟩

/-- A diff result: the `defaultdict(list)` of category buckets, in bucket
creation order. -/
abbrev DiffResult := List (String × List DiffEntry)

/-- `diffs[cat].append(e)` on a `defaultdict(list)`: append in place when
the bucket exists, create a singleton bucket at the end otherwise. -/
def bucketAppend : DiffResult → String → DiffEntry → DiffResult
  | [], cat, e => [(cat, [e])]
  | (c, l) :: rest, cat, e =>
    if c = cat then (c, l ++ [e]) :: rest
    else (c, l) :: bucketAppend rest cat e

/-- The synthetic entry for an interface present only in the old dump. -/
def removedEntry (n : String) : DiffEntry :=
  ⟨"network.interfaces." ++ n, .str "present", .str "absent", "INFO", some "interface removed"⟩

/-- The synthetic entry for an interface present only in the new dump. -/
def addedEntry (n : String) : DiffEntry :=
  ⟨"network.interfaces." ++ n, .str "absent", .str "present", "INFO", some "interface added"⟩

/-- The synthetic structural-change entries of one diff run, in emission
order: removed interfaces (sorted) first, then added interfaces (sorted). -/
def synthEntries (oldIf newIf : List String) : List DiffEntry :=
  (sortedSetDiff oldIf newIf).map removedEntry ++ (sortedSetDiff newIf oldIf).map addedEntry

/-- The leaf entry `diff_dumps` builds for a changed address `k`. -/
def leafEntry (fOld fNew : List (String × Scalar)) (ctx : Bool) (k : String) : DiffEntry :=
  let a := (fOld.lookup k).getD .null
  let b := (fNew.lookup k).getD .null
  let sn := severity_of k a b ctx
  ⟨k, a, b, sn.1, sn.2⟩

/-- `diff_dumps` from the source.  Returns `none` when the interface-key
extraction raises (`old`/`new` not dict-shaped at `network.interfaces`);
otherwise: flatten both documents, compute the context flag, emit the
synthetic interface entries into the `network` bucket, then walk the sorted
union of addresses and emit a classified entry for each changed address
into its category bucket; optionally drop empty buckets. -/
def diff_dumps (old new : Value) (only_changed : Bool) : Option DiffResult :=
  match ifaceKeys old, ifaceKeys new with
  | some oldIf, some newIf =>
    let fOld := flatten old ""
    let fNew := flatten new ""
    let keys := sortStr ((fOld.map Prod.fst ++ fNew.map Prod.fst).dedup)
    let context := compute_irq_affinity_present old || compute_irq_affinity_present new
    let d1 := (synthEntries oldIf newIf).foldl (fun r e => bucketAppend r "network" e) []
    let d2 := keys.foldl (fun r k =>
        let a := (fOld.lookup k).getD .null
        let b := (fNew.lookup k).getD .null
        if value_changed a b then
          bucketAppend r (category_of k) (leafEntry fOld fNew context k)
        else r) d1
    some (if only_changed then d2.filter (fun p => !p.2.isEmpty) else d2)
  | _, _ => none

/-! ## The rendering contracts the claims mention -/

/-- The per-category sort key used by `write_md` and `print_console`:
`(SEV_ORDER.get(severity, 99), path)`, compared lexicographically.  Python's
`sorted` sorts by `≤` on this key. -/
def entryLe (x y : DiffEntry) : Bool :=
  sevRank x.severity < sevRank y.severity ||
    (sevRank x.severity = sevRank y.severity && strLe x.path y.path)

/-- `entryLe` as a relation. -/
def entryLeRel (x y : DiffEntry) : Prop :=
  entryLe x y = true

instance : DecidableRel entryLeRel := fun x y =>
  inferInstanceAs (Decidable (entryLe x y = true))

/-- `sorted(diffs[cat], key=lambda it: (SEV_ORDER.get(it["severity"], 99), it["path"]))`
from `write_md`: the ordered per-category listing of the Markdown report.
Python's `sorted` is stable, and a stable sort is a unique function of the
input and the comparison, so the stable insertion sort is the same
function. -/
def mdSortedBucket (l : List DiffEntry) : List DiffEntry :=
  List.insertionSort entryLeRel l

/-- The entry dict as `diff_dumps` constructs it: insertion order
`path, old, new, severity, note`, with `None` for a missing note. -/
def entryDict (e : DiffEntry) : List (String × Scalar) :=
  [("path", .str e.path), ("old", e.old), ("new", e.new),
   ("severity", .str e.severity),
   ("note", match e.note with | some s => .str s | none => .null)]

/-- Key order used by `json.dump(..., sort_keys=True)`: ascending key
string. -/
def keyLeRel (p q : String × Scalar) : Prop :=
  strLeRel p.1 q.1

instance : DecidableRel keyLeRel := fun p q =>
  inferInstanceAs (Decidable (strLe p.1 q.1 = true))

/-- The JSON object `write_json` serializes for one diff entry:
`json.dump(diffs, f, indent=2, sort_keys=True)` emits each object's keys
in ascending string order, with `None` rendered as JSON `null`. -/
def entryToJsonPairs (e : DiffEntry) : List (String × Scalar) :=
  List.insertionSort keyLeRel (entryDict e)

/-! ## Classifier outcome lemmas -/

/-- The closed list of (severity, note) outcomes the classifier can return. -/
def sevOutcomes : List (String × Option String) :=
  [("CRITICAL", none), ("CRITICAL", some "governor != performance"),
   ("CRITICAL", some "CPU topology changed"), ("CRITICAL", some "ring size reduced"),
   ("CRITICAL", some "channels reduced"), ("CRITICAL", some "coalesce changed drastically"),
   ("CRITICAL", some "libstdc++ ABI level changed"),
   ("CRITICAL", some "irqbalance change with IRQ pinning"),
   ("WARNING", none), ("INFO", none)]

set_option maxHeartbeats 2000000 in
/-- Every classifier call returns one of the ten outcomes of `sevOutcomes`. -/
theorem severity_of_mem_outcomes (p : String) (a b : Scalar) (ctx : Bool) :
    severity_of p a b ctx ∈ sevOutcomes := by
  unfold severity_of
  by_cases h1 : p = "kernel.uname.release"
  · rw [if_pos h1]; decide
  rw [if_neg h1]
  by_cases h2 : p = "kernel.cmdline"
  · rw [if_pos h2]; decide
  rw [if_neg h2]
  by_cases h3 : p = "timekeeping.clocksource_current"
  · rw [if_pos h3]; decide
  rw [if_neg h3]
  by_cases h4 : p = "cpu_topology.smt_active"
  · rw [if_pos h4]; decide
  rw [if_neg h4]
  by_cases h5 : strStarts "cpu_topology.per_cpu_governors." p = true
  · rw [if_pos h5]; (repeat' split) <;> decide
  rw [if_neg h5]
  by_cases h6 : p = "cpu_topology.lscpu_hash"
  · rw [if_pos h6]; decide
  rw [if_neg h6]
  by_cases h7 : p = "memory.transparent_hugepage.enabled"
  · rw [if_pos h7]; decide
  rw [if_neg h7]
  by_cases h8 : strStarts "irq.smp_affinity_list." p = true
  · rw [if_pos h8]; decide
  rw [if_neg h8]
  by_cases h9 : (strStarts "network.interfaces." p && pyIn ".ethtool.features." p) = true
  · rw [if_pos h9]; (repeat' split) <;> decide
  rw [if_neg h9]
  by_cases h10 : (strStarts "network.interfaces." p && pyIn ".ethtool.rings." p) = true
  · rw [if_pos h10]; (repeat' split) <;> decide
  rw [if_neg h10]
  by_cases h11 : (strStarts "network.interfaces." p && pyIn ".ethtool.channels." p) = true
  · rw [if_pos h11]; (repeat' split) <;> decide
  rw [if_neg h11]
  by_cases h12 : (strStarts "network.interfaces." p && pyIn ".ethtool.coalesce." p) = true
  · rw [if_pos h12]; (repeat' split) <;> decide
  rw [if_neg h12]
  by_cases h13 : p = "toolchain.libstdcxx_max_glibcxx"
  · rw [if_pos h13]; decide
  rw [if_neg h13]
  by_cases h14 : p = "services_sysctl.irqbalance.state"
  · rw [if_pos h14]; (repeat' split) <;> decide
  rw [if_neg h14]
  by_cases h15 : (p == "memory.overcommit_memory" || p == "memory.swappiness") = true
  · rw [if_pos h15]; decide
  rw [if_neg h15]
  by_cases h16 : strStarts "memory.ksm." p = true
  · rw [if_pos h16]; decide
  rw [if_neg h16]
  by_cases h17 : (strEnds ".mtu" p && strStarts "network.interfaces." p) = true
  · rw [if_pos h17]; decide
  rw [if_neg h17]
  by_cases h18 : strStarts "toolchain." p = true
  · rw [if_pos h18]; decide
  rw [if_neg h18]
  by_cases h19 : strStarts "network.routes." p = true
  · rw [if_pos h19]; decide
  rw [if_neg h19]
  by_cases h20 : strStarts "services_sysctl.sysctl." p = true
  · rw [if_pos h20]; decide
  rw [if_neg h20]
  by_cases h21 : strStarts "timekeeping.ptp_devices" p = true
  · rw [if_pos h21]; decide
  rw [if_neg h21]
  by_cases h22 : strStarts "network.interfaces." p = true
  · rw [if_pos h22]; decide
  rw [if_neg h22]
  by_cases h23 : strStarts "containers." p = true
  · rw [if_pos h23]; decide
  rw [if_neg h23]
  decide

/-- The classifier's severity is always one of the three literal names. -/
theorem severity_of_total (p : String) (a b : Scalar) (ctx : Bool) :
    (severity_of p a b ctx).1 = "CRITICAL" ∨ (severity_of p a b ctx).1 = "WARNING" ∨
      (severity_of p a b ctx).1 = "INFO" := by
  have h := severity_of_mem_outcomes p a b ctx
  simp only [sevOutcomes, List.mem_cons, List.not_mem_nil, or_false] at h
  rcases h with h | h | h | h | h | h | h | h | h | h <;> rw [h] <;> simp

/-- The classifier never attaches the structural-change notes. -/
theorem severity_of_note_ne_synth (p : String) (a b : Scalar) (ctx : Bool) :
    (severity_of p a b ctx).2 ≠ some "interface removed" ∧
      (severity_of p a b ctx).2 ≠ some "interface added" := by
  have h := severity_of_mem_outcomes p a b ctx
  simp only [sevOutcomes, List.mem_cons, List.not_mem_nil, or_false] at h
  rcases h with h | h | h | h | h | h | h | h | h | h <;> rw [h] <;> refine ⟨?_, ?_⟩ <;> decide

/-- Two possible prefixes of the same string are comparable, so a string
starting with `A` cannot also start with a `B` incomparable with `A`. -/
theorem not_starts_of_starts {A B p : String} (h : strStarts A p = true)
    (hAB : (A.data.isPrefixOf B.data || B.data.isPrefixOf A.data) = false) :
    ¬ strStarts B p = true := by
  intro hB
  rw [strStarts, List.isPrefixOf_iff_prefix] at h hB
  rcases List.prefix_or_prefix_of_prefix h hB with hc | hc <;>
    rw [← List.isPrefixOf_iff_prefix] at hc <;> simp [hc] at hAB

/-- C4 helper: the governor rule, fully characterized.  The right-hand side
does not mention `old`, so the outcome is independent of the old value. -/
theorem governor_rule (p : String) (old new : Scalar) (ctx : Bool)
    (h : strStarts "cpu_topology.per_cpu_governors." p = true) :
    severity_of p old new ctx =
      (if new ≠ Scalar.null ∧ strToLower (pyStr new) ≠ "" ∧
          strToLower (pyStr new) ≠ "performance"
       then ("CRITICAL", some "governor != performance") else ("WARNING", none)) := by
  have h1 : p ≠ "kernel.uname.release" := by rintro rfl; exact absurd h (by decide)
  have h2 : p ≠ "kernel.cmdline" := by rintro rfl; exact absurd h (by decide)
  have h3 : p ≠ "timekeeping.clocksource_current" := by rintro rfl; exact absurd h (by decide)
  have h4 : p ≠ "cpu_topology.smt_active" := by rintro rfl; exact absurd h (by decide)
  unfold severity_of
  rw [if_neg h1, if_neg h2, if_neg h3, if_neg h4, if_pos h]
  by_cases hn : new = Scalar.null
  · subst hn; simp
  · simp only [if_neg hn]
    rcases hne : strToLower (pyStr new) == "" with _ | _ <;>
      rcases hnp : strToLower (pyStr new) == "performance" with _ | _ <;>
        simp_all [bne]

/-- **C4.**  For every path with prefix `cpu_topology.per_cpu_governors.`
and every old value, the classifier returns CRITICAL with note
`"governor != performance"` exactly when the new value, stringified and
lowercased, is non-empty and different from `"performance"` (a null new
value stringifies to the empty string, hence WARNING); in every other case
it returns WARNING with no note.  `old` and `ctx` are universally
quantified and absent from the right-hand side, so the result does not
depend on the old value. -/
theorem claim_C4 (p : String) (old new : Scalar) (ctx : Bool)
    (h : strStarts "cpu_topology.per_cpu_governors." p = true) :
    severity_of p old new ctx =
      (if new ≠ Scalar.null ∧ strToLower (pyStr new) ≠ "" ∧
          strToLower (pyStr new) ≠ "performance"
       then ("CRITICAL", some "governor != performance") else ("WARNING", none)) :=
  governor_rule p old new ctx h

/-- Witness for C4 at the spec's own example input. -/
theorem claim_C4_witness :
    strStarts "cpu_topology.per_cpu_governors." "cpu_topology.per_cpu_governors.cpu0" = true ∧
    severity_of "cpu_topology.per_cpu_governors.cpu0" (.str "performance") (.str "powersave") false =
      (if Scalar.str "powersave" ≠ Scalar.null ∧
          strToLower (pyStr (.str "powersave")) ≠ "" ∧
          strToLower (pyStr (.str "powersave")) ≠ "performance"
       then ("CRITICAL", some "governor != performance") else ("WARNING", none)) :=
  ⟨by decide, claim_C4 "cpu_topology.per_cpu_governors.cpu0" (.str "performance")
    (.str "powersave") false (by decide)⟩

/-- C5 helper: common preamble — under `strStarts "network.interfaces." p`,
none of the eight rules before the features rule matches. -/
theorem severity_of_net_reach (p : String) (a b : Scalar) (ctx : Bool)
    (h : strStarts "network.interfaces." p = true) :
    severity_of p a b ctx =
      (if (strStarts "network.interfaces." p && pyIn ".ethtool.features." p) = true then
        if critFeats.any (fun f => pyIn f (splitAfterFirst ".ethtool.features." p)) then
          ("CRITICAL", none)
        else ("WARNING", none)
      else if (strStarts "network.interfaces." p && pyIn ".ethtool.rings." p) = true then
        match parse_int a, parse_int b with
        | some o, some n => if n < o then ("CRITICAL", some "ring size reduced") else ("INFO", none)
        | _, _ => ("INFO", none)
      else if (strStarts "network.interfaces." p && pyIn ".ethtool.channels." p) = true then
        match parse_int a, parse_int b with
        | some o, some n => if n < o then ("CRITICAL", some "channels reduced") else ("INFO", none)
        | _, _ => ("INFO", none)
      else if (strStarts "network.interfaces." p && pyIn ".ethtool.coalesce." p) = true then
        match parse_int a, parse_int b with
        | some o, some n =>
          if 32 ≤ (n - o).natAbs then ("CRITICAL", some "coalesce changed drastically")
          else ("WARNING", none)
        | _, _ => ("WARNING", none)
      else if p = "toolchain.libstdcxx_max_glibcxx" then
        ("CRITICAL", some "libstdc++ ABI level changed")
      else if p = "services_sysctl.irqbalance.state" then
        if ctx then ("CRITICAL", some "irqbalance change with IRQ pinning")
        else ("WARNING", none)
      else if p == "memory.overcommit_memory" || p == "memory.swappiness" then ("WARNING", none)
      else if strStarts "memory.ksm." p then ("WARNING", none)
      else if strEnds ".mtu" p && strStarts "network.interfaces." p then ("WARNING", none)
      else if strStarts "toolchain." p then ("WARNING", none)
      else if strStarts "network.routes." p then ("WARNING", none)
      else if strStarts "services_sysctl.sysctl." p then ("WARNING", none)
      else if strStarts "timekeeping.ptp_devices" p then ("INFO", none)
      else if strStarts "network.interfaces." p then ("INFO", none)
      else if strStarts "containers." p then ("INFO", none)
      else ("INFO", none)) := by
  have h1 : p ≠ "kernel.uname.release" := by rintro rfl; exact absurd h (by decide)
  have h2 : p ≠ "kernel.cmdline" := by rintro rfl; exact absurd h (by decide)
  have h3 : p ≠ "timekeeping.clocksource_current" := by rintro rfl; exact absurd h (by decide)
  have h4 : p ≠ "cpu_topology.smt_active" := by rintro rfl; exact absurd h (by decide)
  have h5 := not_starts_of_starts (B := "cpu_topology.per_cpu_governors.") h (by decide)
  have h6 : p ≠ "cpu_topology.lscpu_hash" := by rintro rfl; exact absurd h (by decide)
  have h7 : p ≠ "memory.transparent_hugepage.enabled" := by rintro rfl; exact absurd h (by decide)
  have h8 := not_starts_of_starts (B := "irq.smp_affinity_list.") h (by decide)
  unfold severity_of
  rw [if_neg h1, if_neg h2, if_neg h3, if_neg h4, if_neg h5, if_neg h6, if_neg h7, if_neg h8]

/-- C5 helper: the rings rule's non-numeric fall-through. -/
theorem rings_fallthrough (p : String) (a b : Scalar) (ctx : Bool)
    (h : strStarts "network.interfaces." p = true)
    (hf : pyIn ".ethtool.features." p = false)
    (hr : pyIn ".ethtool.rings." p = true)
    (hp : parse_int a = none ∨ parse_int b = none) :
    severity_of p a b ctx = ("INFO", none) := by
  rw [severity_of_net_reach p a b ctx h, if_neg (by simp [hf]), if_pos (by simp [h, hr])]
  (repeat' split) <;> simp_all

/-- C5 helper: the channels rule's non-numeric fall-through. -/
theorem channels_fallthrough (p : String) (a b : Scalar) (ctx : Bool)
    (h : strStarts "network.interfaces." p = true)
    (hf : pyIn ".ethtool.features." p = false)
    (hri : pyIn ".ethtool.rings." p = false)
    (hc : pyIn ".ethtool.channels." p = true)
    (hp : parse_int a = none ∨ parse_int b = none) :
    severity_of p a b ctx = ("INFO", none) := by
  rw [severity_of_net_reach p a b ctx h, if_neg (by simp [hf]), if_neg (by simp [hri]),
    if_pos (by simp [h, hc])]
  (repeat' split) <;> simp_all

/-- C5 helper: the coalesce rule's non-numeric fall-through. -/
theorem coalesce_fallthrough (p : String) (a b : Scalar) (ctx : Bool)
    (h : strStarts "network.interfaces." p = true)
    (hf : pyIn ".ethtool.features." p = false)
    (hri : pyIn ".ethtool.rings." p = false)
    (hch : pyIn ".ethtool.channels." p = false)
    (hco : pyIn ".ethtool.coalesce." p = true)
    (hp : parse_int a = none ∨ parse_int b = none) :
    severity_of p a b ctx = ("WARNING", none) := by
  rw [severity_of_net_reach p a b ctx h, if_neg (by simp [hf]), if_neg (by simp [hri]),
    if_neg (by simp [hch]), if_pos (by simp [h, hco])]
  (repeat' split) <;> simp_all

/-- **C5 (counterexample).**  The claim says integer parsing succeeds
*exactly* for decimal and `0x`-prefixed hexadecimal representations, so an
octal string such as `"0o100"` should fail to parse and drive the coalesce
rule to its WARNING fall-through.  In fact `int(str(v).strip(), 0)` accepts
it (value 64), and the classifier takes the numeric CRITICAL branch. -/
theorem claim_C5_counterexample :
    parse_int (.str "0o100") = some 64 ∧
    severity_of "network.interfaces.eth0.ethtool.coalesce.rx-usecs"
        (.str "0o100") (.str "0") false
      = ("CRITICAL", some "coalesce changed drastically") :=
  ⟨by decide, by decide⟩

/-- **C5 (amended).**  Integer parsing accepts any Python base-0 integer
literal — decimal (with no leading zero unless the value is zero),
`0x`/`0o`/`0b` prefixed forms, an optional sign, and single underscores
between digits — and fails on everything else; whenever either side of a
rings / channels / coalesce comparison fails to parse, the classifier
falls through to that family's non-numeric default (INFO for rings and
channels, WARNING for coalesce) instead of failing. -/
theorem claim_C5 (p : String) (a b : Scalar) (ctx : Bool) :
    (strStarts "network.interfaces." p = true →
      pyIn ".ethtool.features." p = false →
      pyIn ".ethtool.rings." p = true →
      (parse_int a = none ∨ parse_int b = none) →
      severity_of p a b ctx = ("INFO", none)) ∧
    (strStarts "network.interfaces." p = true →
      pyIn ".ethtool.features." p = false →
      pyIn ".ethtool.rings." p = false →
      pyIn ".ethtool.channels." p = true →
      (parse_int a = none ∨ parse_int b = none) →
      severity_of p a b ctx = ("INFO", none)) ∧
    (strStarts "network.interfaces." p = true →
      pyIn ".ethtool.features." p = false →
      pyIn ".ethtool.rings." p = false →
      pyIn ".ethtool.channels." p = false →
      pyIn ".ethtool.coalesce." p = true →
      (parse_int a = none ∨ parse_int b = none) →
      severity_of p a b ctx = ("WARNING", none)) ∧
    parse_int (.str "512") = some 512 ∧
    parse_int (.str " 0x20 ") = some 32 ∧
    parse_int (.str "-12") = some (-12) ∧
    parse_int (.str "1_0") = some 10 ∧
    parse_int (.str "0b101") = some 5 ∧
    parse_int (.str "010") = none ∧
    parse_int (.str "") = none ∧
    parse_int (.str "performance") = none ∧
    parse_int .null = none ∧
    parse_int (.bool true) = none :=
  ⟨fun h hf hr hp => rings_fallthrough p a b ctx h hf hr hp,
   fun h hf hri hc hp => channels_fallthrough p a b ctx h hf hri hc hp,
   fun h hf hri hch hco hp => coalesce_fallthrough p a b ctx h hf hri hch hco hp,
   by decide, by decide, by decide, by decide, by decide, by decide, by decide,
   by decide, by decide, by decide⟩

/-- Witness for C5: a rings-family path whose old value does not parse
falls through to INFO. -/
theorem claim_C5_witness :
    strStarts "network.interfaces." "network.interfaces.eth0.ethtool.rings.rx" = true ∧
    pyIn ".ethtool.features." "network.interfaces.eth0.ethtool.rings.rx" = false ∧
    pyIn ".ethtool.rings." "network.interfaces.eth0.ethtool.rings.rx" = true ∧
    parse_int (.str "lots") = none ∧
    severity_of "network.interfaces.eth0.ethtool.rings.rx" (.str "lots") (.str "512") false
      = ("INFO", none) :=
  ⟨by decide, by decide, by decide, by decide,
   (claim_C5 "network.interfaces.eth0.ethtool.rings.rx" (.str "lots") (.str "512") false).1
     (by decide) (by decide) (by decide) (Or.inl (by decide))⟩

/-! ## C6: the irqbalance rule and the context flag -/

/-- The entries of the `irq.smp_affinity_list` mapping of a snapshot
document (empty when the subtree is absent, null, or not a mapping). -/
def affFields (d : Value) : List (String × Value) :=
  match d with
  | .dict kvs =>
    match kvs.lookup "irq" with
    | some (.dict irqkvs) =>
      match irqkvs.lookup "smp_affinity_list" with
      | some (.dict akvs) => akvs
      | _ => []
    | _ => []
  | _ => []

/-- Well-shapedness of the IRQ affinity subtree of a snapshot: when the
document is a mapping whose `irq` entry is a mapping carrying a
`smp_affinity_list` entry, that entry is either null or a mapping (which
is what the collector produces). -/
def affWellShaped (d : Value) : Bool :=
  match d with
  | .dict kvs =>
    match kvs.lookup "irq" with
    | some (.dict irqkvs) =>
      match irqkvs.lookup "smp_affinity_list" with
      | none => true
      | some (.scalar .null) => true
      | some (.dict _) => true
      | some _ => false
    | _ => true
  | _ => true

/-- On a dict value, `orEmptyDict` is the identity. -/
theorem orEmptyDict_dict (kvs : List (String × Value)) :
    orEmptyDict (some (.dict kvs)) = .dict kvs := by
  cases kvs <;> rfl

/-- C6 helper: under well-shapedness, the context flag of one snapshot is
true exactly when its affinity mapping has at least one entry. -/
theorem compute_irq_affinity_present_iff (d : Value) (h : affWellShaped d = true) :
    compute_irq_affinity_present d = !(affFields d).isEmpty := by
  cases d with
  | scalar s => rfl
  | list xs => rfl
  | dict kvs =>
    rcases hirq : kvs.lookup "irq" with _ | v
    · simp only [compute_irq_affinity_present, affFields, hirq]
      rfl
    · cases v with
      | scalar s =>
        simp only [compute_irq_affinity_present, affFields, hirq, orEmptyDict]
        rcases hs : pyTruthy (.scalar s) <;> simp [hs, pyTruthy]
      | list xs =>
        simp only [compute_irq_affinity_present, affFields, hirq, orEmptyDict]
        rcases hs : pyTruthy (.list xs) <;> simp [hs, pyTruthy]
      | dict irqkvs =>
        simp only [compute_irq_affinity_present, affFields, hirq, orEmptyDict_dict]
        simp only [affWellShaped, hirq] at h
        rcases haff : irqkvs.lookup "smp_affinity_list" with _ | w
        · rfl
        · cases w with
          | scalar s => cases s <;> simp_all [orEmptyDict, pyTruthy]
          | list xs => simp_all
          | dict akvs => rw [orEmptyDict_dict]; cases akvs <;> simp [pyTruthy]

/-- **C6.**  For the exact path `services_sysctl.irqbalance.state` the
classifier returns CRITICAL with note "irqbalance change with IRQ pinning"
when the context flag is true and WARNING with no note when it is false;
and the context flag `diff_dumps` computes — the disjunction of the two
per-snapshot flags — is true exactly when at least one of the two
well-shaped snapshots has at least one entry under its
`irq.smp_affinity_list` subtree. -/
theorem claim_C6 (old new : Value) (a b : Scalar)
    (h1 : affWellShaped old = true) (h2 : affWellShaped new = true) :
    (severity_of "services_sysctl.irqbalance.state" a b
        (compute_irq_affinity_present old || compute_irq_affinity_present new) =
      if affFields old ≠ [] ∨ affFields new ≠ []
      then ("CRITICAL", some "irqbalance change with IRQ pinning")
      else ("WARNING", none)) ∧
    ((compute_irq_affinity_present old || compute_irq_affinity_present new) = true ↔
      (affFields old ≠ [] ∨ affFields new ≠ [])) := by
  have hctx : (compute_irq_affinity_present old || compute_irq_affinity_present new) = true ↔
      (affFields old ≠ [] ∨ affFields new ≠ []) := by
    rw [compute_irq_affinity_present_iff old h1, compute_irq_affinity_present_iff new h2]
    simp [List.isEmpty_iff]
  refine ⟨?_, hctx⟩
  have hsev : ∀ c : Bool, severity_of "services_sysctl.irqbalance.state" a b c =
      if c then ("CRITICAL", some "irqbalance change with IRQ pinning")
      else ("WARNING", none) := by
    intro c; cases c <;> rfl
  rw [hsev]
  by_cases hor : affFields old ≠ [] ∨ affFields new ≠ []
  · rw [if_pos (hctx.mpr hor), if_pos hor]
  · rw [if_neg hor, if_neg (fun hc => hor (hctx.mp hc))]

/-- Witness for C6: a snapshot pinning IRQ 16 versus one with no IRQ data
drives the flag, and the classifier goes CRITICAL on irqbalance drift. -/
theorem claim_C6_witness :
    affWellShaped (Value.dict [("irq", .dict [("smp_affinity_list",
        .dict [("16", .scalar (.str "2-3"))])])]) = true ∧
    affWellShaped (Value.dict [("kernel", .scalar (.str "x"))]) = true ∧
    ((severity_of "services_sysctl.irqbalance.state" (.str "enabled") (.str "disabled")
        (compute_irq_affinity_present (Value.dict [("irq", .dict [("smp_affinity_list",
          .dict [("16", .scalar (.str "2-3"))])])]) ||
         compute_irq_affinity_present (Value.dict [("kernel", .scalar (.str "x"))])) =
      if affFields (Value.dict [("irq", .dict [("smp_affinity_list",
            .dict [("16", .scalar (.str "2-3"))])])]) ≠ [] ∨
          affFields (Value.dict [("kernel", .scalar (.str "x"))]) ≠ []
      then ("CRITICAL", some "irqbalance change with IRQ pinning")
      else ("WARNING", none)) ∧
    ((compute_irq_affinity_present (Value.dict [("irq", .dict [("smp_affinity_list",
          .dict [("16", .scalar (.str "2-3"))])])]) ||
       compute_irq_affinity_present (Value.dict [("kernel", .scalar (.str "x"))])) = true ↔
      (affFields (Value.dict [("irq", .dict [("smp_affinity_list",
          .dict [("16", .scalar (.str "2-3"))])])]) ≠ [] ∨
        affFields (Value.dict [("kernel", .scalar (.str "x"))]) ≠ []))) :=
  ⟨by decide, by decide,
   claim_C6 (Value.dict [("irq", .dict [("smp_affinity_list",
      .dict [("16", .scalar (.str "2-3"))])])])
     (Value.dict [("kernel", .scalar (.str "x"))])
     (.str "enabled") (.str "disabled") (by decide) (by decide)⟩

/-! ## Bucket lemmas for the diff engine -/

/-- The entries of category `c` in a diff result (empty when the bucket
does not exist). -/
def bucketOf (r : DiffResult) (c : String) : List DiffEntry :=
  (r.lookup c).getD []

/-- All entries of a diff result, across buckets. -/
def allEntries (r : DiffResult) : List DiffEntry :=
  (r.map Prod.snd).flatten

theorem lookup_bucketAppend (r : DiffResult) (c c' : String) (e : DiffEntry) :
    (bucketAppend r c e).lookup c' =
      if c' = c then some (((r.lookup c).getD []) ++ [e]) else r.lookup c' := by
  induction r with
  | nil =>
    by_cases h : c' = c
    · subst h; simp [bucketAppend, List.lookup]
    · simp [bucketAppend, List.lookup, h, beq_eq_false_iff_ne.mpr h]
  | cons p t ih =>
    obtain ⟨c0, l0⟩ := p
    by_cases h0 : c0 = c
    · subst h0
      simp only [bucketAppend, if_pos rfl]
      by_cases h : c' = c0
      · subst h; simp [List.lookup]
      · simp [List.lookup, h, beq_eq_false_iff_ne.mpr h]
    · simp only [bucketAppend, if_neg h0]
      by_cases h : c' = c0
      · subst h
        simp [List.lookup, h0]
      · simp [List.lookup, beq_eq_false_iff_ne.mpr h, ih,
          beq_eq_false_iff_ne.mpr (Ne.symm h0)]

theorem bucketOf_bucketAppend (r : DiffResult) (c c' : String) (e : DiffEntry) :
    bucketOf (bucketAppend r c e) c' =
      if c' = c then bucketOf r c ++ [e] else bucketOf r c' := by
  unfold bucketOf
  rw [lookup_bucketAppend]
  by_cases h : c' = c <;> simp [h]

/-- `bucketAppend` never leaves an empty bucket behind. -/
theorem bucketAppend_nonempty (r : DiffResult) (c : String) (e : DiffEntry)
    (h : ∀ q ∈ r, q.2 ≠ []) : ∀ p ∈ bucketAppend r c e, p.2 ≠ [] := by
  induction r with
  | nil =>
    intro p hp
    simp only [bucketAppend, List.mem_singleton] at hp
    subst hp; simp
  | cons q t ih =>
    obtain ⟨c0, l0⟩ := q
    intro p hp
    by_cases h0 : c0 = c
    · simp only [bucketAppend, if_pos h0, List.mem_cons] at hp
      rcases hp with hp | hp
      · subst hp; simp
      · exact h p (List.mem_cons_of_mem _ hp)
    · simp only [bucketAppend, if_neg h0, List.mem_cons] at hp
      rcases hp with hp | hp
      · subst hp
        exact h (c0, l0) (List.mem_cons_self _ _)
      · exact ih (fun q hq => h q (List.mem_cons_of_mem _ hq)) p hp

/-- A fold of appends starting from a result with no empty bucket leaves
no empty bucket. -/
theorem foldl_buckets_nonempty {α : Type} (step : DiffResult → α → DiffResult)
    (hstep : ∀ r x, (∀ q ∈ r, q.2 ≠ []) → ∀ p ∈ step r x, p.2 ≠ []) :
    ∀ (l : List α) (r0 : DiffResult), (∀ q ∈ r0, q.2 ≠ []) →
      ∀ p ∈ l.foldl step r0, p.2 ≠ [] := by
  intro l
  induction l with
  | nil => intro r0 h0 p hp; exact h0 p hp
  | cons x t ih => intro r0 h0 p hp; exact ih (step r0 x) (hstep r0 x h0) p hp

/-- **C10.**  The empty-category filter (`--only-changed`) never removes
anything: a bucket is created only when an entry is appended to it, so no
empty bucket ever exists and the filtered diff equals the unfiltered one. -/
theorem claim_C10 (old new : Value) :
    diff_dumps old new true = diff_dumps old new false := by
  unfold diff_dumps
  cases ho : ifaceKeys old with
  | none => rfl
  | some oldIf =>
    cases hn : ifaceKeys new with
    | none => rfl
    | some newIf =>
      simp only [if_pos rfl]
      congr 1
      apply List.filter_eq_self.mpr
      intro p hp
      have h1 : ∀ q ∈ ((synthEntries oldIf newIf).foldl
          (fun r e => bucketAppend r "network" e) ([] : DiffResult)), q.2 ≠ [] :=
        foldl_buckets_nonempty _ (fun r x h => bucketAppend_nonempty r "network" x h)
          (synthEntries oldIf newIf) [] (by intro q hq; cases hq)
      have h2 := foldl_buckets_nonempty
        (fun r k =>
          if value_changed (((flatten old "").lookup k).getD .null)
              (((flatten new "").lookup k).getD .null) then
            bucketAppend r (category_of k)
              (leafEntry (flatten old "") (flatten new "")
                (compute_irq_affinity_present old || compute_irq_affinity_present new) k)
          else r)
        (by
          intro r x h p hp
          dsimp only at hp
          split at hp
          · exact bucketAppend_nonempty r _ _ h p hp
          · exact h p hp)
        (sortStr (((flatten old "").map Prod.fst ++ (flatten new "").map Prod.fst).dedup))
        _ h1
      have := h2 p hp
      simpa [List.isEmpty_iff] using this

/-! ## Characterization of the diff result -/

/-- The sorted union of leaf addresses walked by one diff run. -/
def diffKeys (old new : Value) : List String :=
  sortStr (((flatten old "").map Prod.fst ++ (flatten new "").map Prod.fst).dedup)

/-- The context flag of one diff run. -/
def diffCtx (old new : Value) : Bool :=
  compute_irq_affinity_present old || compute_irq_affinity_present new

/-- Whether the diff run emits a leaf entry at address `k`. -/
def keyChanged (fOld fNew : List (String × Scalar)) (k : String) : Bool :=
  value_changed ((fOld.lookup k).getD .null) ((fNew.lookup k).getD .null)

/-- The leaf entries of one diff run, in address-walk order. -/
def leafEntriesList (fOld fNew : List (String × Scalar)) (ctx : Bool)
    (keys : List String) : List DiffEntry :=
  (keys.filter (keyChanged fOld fNew)).map (leafEntry fOld fNew ctx)

/-- The bucket structure the two folds of `diff_dumps` build. -/
def rawDiff (old new : Value) (oldIf newIf : List String) : DiffResult :=
  (diffKeys old new).foldl
    (fun r k =>
      if value_changed (((flatten old "").lookup k).getD .null)
          (((flatten new "").lookup k).getD .null) then
        bucketAppend r (category_of k)
          (leafEntry (flatten old "") (flatten new "") (diffCtx old new) k)
      else r)
    ((synthEntries oldIf newIf).foldl (fun r e => bucketAppend r "network" e) [])

/-- `diff_dumps` in terms of `rawDiff`. -/
theorem diff_dumps_eq_rawDiff (old new : Value) (oc : Bool)
    (oldIf newIf : List String)
    (ho : ifaceKeys old = some oldIf) (hn : ifaceKeys new = some newIf) :
    diff_dumps old new oc =
      some (if oc then (rawDiff old new oldIf newIf).filter (fun p => !p.2.isEmpty)
            else rawDiff old new oldIf newIf) := by
  unfold diff_dumps rawDiff diffKeys diffCtx
  rw [ho, hn]

/-- Folding the synthetic entries into the empty result puts them all in
the `network` bucket, in order. -/
theorem bucketOf_synthFold (es : List DiffEntry) (r : DiffResult) (c : String) :
    bucketOf (es.foldl (fun r e => bucketAppend r "network" e) r) c =
      bucketOf r c ++ (if c = "network" then es else []) := by
  induction es generalizing r with
  | nil => simp
  | cons e t ih =>
    rw [List.foldl_cons, ih, bucketOf_bucketAppend]
    by_cases h : c = "network" <;> simp [h]

/-- Folding the leaf walk appends, per category, exactly the changed-leaf
entries whose path's category matches. -/
theorem bucketOf_leafFold (old new : Value) (keys : List String) (r : DiffResult) (c : String) :
    bucketOf (keys.foldl
      (fun r k =>
        if value_changed (((flatten old "").lookup k).getD .null)
            (((flatten new "").lookup k).getD .null) then
          bucketAppend r (category_of k)
            (leafEntry (flatten old "") (flatten new "") (diffCtx old new) k)
        else r) r) c =
      bucketOf r c ++
        (leafEntriesList (flatten old "") (flatten new "") (diffCtx old new) keys).filter
          (fun e => category_of e.path == c) := by
  induction keys generalizing r with
  | nil => simp [leafEntriesList]
  | cons k t ih =>
    rw [List.foldl_cons]
    by_cases hc : keyChanged (flatten old "") (flatten new "") k = true
    · have hc' : value_changed (((flatten old "").lookup k).getD .null)
          (((flatten new "").lookup k).getD .null) = true := hc
      rw [if_pos hc', ih, bucketOf_bucketAppend]
      have hpath : (leafEntry (flatten old "") (flatten new "") (diffCtx old new) k).path = k := rfl
      simp only [leafEntriesList, List.filter_cons, hc, List.map_cons, List.filter]
      by_cases h : category_of k = c
      · simp [h, hpath, List.append_assoc]
      · simp only [hpath, beq_eq_false_iff_ne.mpr h, if_neg (fun hh : c = category_of k => h hh.symm)]
        simp
    · have hc' : ¬ value_changed (((flatten old "").lookup k).getD .null)
          (((flatten new "").lookup k).getD .null) = true := hc
      rw [if_neg hc', ih]
      have hcf : keyChanged (flatten old "") (flatten new "") k = false :=
        Bool.eq_false_iff.mpr hc
      simp only [leafEntriesList, List.filter_cons, hcf]
      simp

/-- Master characterization: each bucket of the raw diff result is the
synthetic entries (for `network`) followed by the changed-leaf entries of
that category, in address order. -/
theorem bucketOf_rawDiff (old new : Value) (oldIf newIf : List String) (c : String) :
    bucketOf (rawDiff old new oldIf newIf) c =
      (if c = "network" then synthEntries oldIf newIf else []) ++
        (leafEntriesList (flatten old "") (flatten new "") (diffCtx old new)
          (diffKeys old new)).filter (fun e => category_of e.path == c) := by
  unfold rawDiff
  rw [bucketOf_leafFold, bucketOf_synthFold]
  simp [bucketOf]

/-- The category names of a bucket appended result. -/
theorem mem_cats_bucketAppend (r : DiffResult) (c x : String) (e : DiffEntry) :
    x ∈ (bucketAppend r c e).map Prod.fst ↔ x ∈ r.map Prod.fst ∨ x = c := by
  induction r with
  | nil => simp [bucketAppend]
  | cons q t ih =>
    obtain ⟨c0, l0⟩ := q
    by_cases h0 : c0 = c
    · subst h0
      simp only [bucketAppend, eq_self_iff_true, if_true, List.map_cons, List.mem_cons]
      tauto
    · simp only [bucketAppend, if_neg h0, List.map_cons, List.mem_cons, ih]
      tauto

/-- `bucketAppend` preserves distinctness of the category names. -/
theorem catsNodup_bucketAppend (r : DiffResult) (c : String) (e : DiffEntry)
    (h : (r.map Prod.fst).Nodup) : ((bucketAppend r c e).map Prod.fst).Nodup := by
  induction r with
  | nil => simp [bucketAppend]
  | cons q t ih =>
    obtain ⟨c0, l0⟩ := q
    simp only [List.map_cons, List.nodup_cons] at h
    by_cases h0 : c0 = c
    · subst h0
      simp only [bucketAppend, eq_self_iff_true, if_true, List.map_cons, List.nodup_cons]
      exact h
    · simp only [bucketAppend, if_neg h0, List.map_cons, List.nodup_cons]
      refine ⟨?_, ih h.2⟩
      rw [mem_cats_bucketAppend]
      rintro (hx | hx)
      · exact h.1 hx
      · exact h0 hx

/-- Folding bucket appends preserves distinctness of category names. -/
theorem catsNodup_foldl {α : Type} (step : DiffResult → α → DiffResult)
    (hstep : ∀ r x, (r.map Prod.fst).Nodup → ((step r x).map Prod.fst).Nodup) :
    ∀ (l : List α) (r0 : DiffResult), (r0.map Prod.fst).Nodup →
      ((l.foldl step r0).map Prod.fst).Nodup := by
  intro l
  induction l with
  | nil => intro r0 h0; exact h0
  | cons x t ih => intro r0 h0; exact ih (step r0 x) (hstep r0 x h0)

/-- The raw diff result has pairwise-distinct category names. -/
theorem catsNodup_rawDiff (old new : Value) (oldIf newIf : List String) :
    ((rawDiff old new oldIf newIf).map Prod.fst).Nodup := by
  unfold rawDiff
  apply catsNodup_foldl
  · intro r x h
    dsimp only
    split
    · exact catsNodup_bucketAppend r _ _ h
    · exact h
  · apply catsNodup_foldl
    · intro r x h
      exact catsNodup_bucketAppend r _ _ h
    · simp

/-- In an association list with distinct keys, membership pins the value
to the lookup. -/
theorem mem_eq_lookup_of_catsNodup (r : DiffResult) (c : String) (l : List DiffEntry)
    (hnd : (r.map Prod.fst).Nodup) (h : (c, l) ∈ r) : r.lookup c = some l := by
  induction r with
  | nil => cases h
  | cons q t ih =>
    obtain ⟨c0, l0⟩ := q
    simp only [List.map_cons, List.nodup_cons] at hnd
    rcases List.mem_cons.mp h with hh | hh
    · rw [Prod.mk.injEq] at hh
      obtain ⟨h1, h2⟩ := hh
      subst h1; subst h2
      simp [List.lookup]
    · have hne : c ≠ c0 := by
        rintro rfl
        exact hnd.1 (List.mem_map.mpr ⟨(c, l), hh, rfl⟩)
      simp only [List.lookup, beq_eq_false_iff_ne.mpr hne]
      exact ih hnd.2 hh

/-! ## Counting entries across buckets -/

theorem countP_allEntries_bucketAppend (r : DiffResult) (c : String) (e : DiffEntry)
    (q : DiffEntry → Bool) :
    (allEntries (bucketAppend r c e)).countP q =
      (allEntries r).countP q + (if q e then 1 else 0) := by
  induction r with
  | nil =>
    simp only [bucketAppend, allEntries, List.map_cons, List.map_nil, List.flatten_cons,
      List.flatten_nil, List.append_nil, List.countP_nil, List.countP_cons]
  | cons p t ih =>
    obtain ⟨c0, l0⟩ := p
    by_cases h0 : c0 = c
    · subst h0
      simp only [bucketAppend, eq_self_iff_true, if_true, allEntries, List.map_cons,
        List.flatten_cons, List.countP_append, List.countP_cons, List.countP_nil]
      rcases hq : q e <;> simp [hq] <;> omega
    · simp only [bucketAppend, if_neg h0, allEntries, List.map_cons, List.flatten_cons,
        List.countP_append] at ih ⊢
      rw [ih]
      omega

theorem countP_allEntries_synthFold (es : List DiffEntry) (r : DiffResult)
    (q : DiffEntry → Bool) :
    (allEntries (es.foldl (fun r e => bucketAppend r "network" e) r)).countP q =
      (allEntries r).countP q + es.countP q := by
  induction es generalizing r with
  | nil => simp
  | cons e t ih =>
    rw [List.foldl_cons, ih, countP_allEntries_bucketAppend, List.countP_cons]
    rcases hq : q e <;> simp [hq] <;> omega

theorem countP_allEntries_leafFold (old new : Value) (keys : List String)
    (r : DiffResult) (q : DiffEntry → Bool) :
    (allEntries (keys.foldl
      (fun r k =>
        if value_changed (((flatten old "").lookup k).getD .null)
            (((flatten new "").lookup k).getD .null) then
          bucketAppend r (category_of k)
            (leafEntry (flatten old "") (flatten new "") (diffCtx old new) k)
        else r) r)).countP q =
      (allEntries r).countP q +
        (leafEntriesList (flatten old "") (flatten new "") (diffCtx old new) keys).countP q := by
  induction keys generalizing r with
  | nil => simp [leafEntriesList]
  | cons k t ih =>
    rw [List.foldl_cons]
    by_cases hc : keyChanged (flatten old "") (flatten new "") k = true
    · have hc' : value_changed (((flatten old "").lookup k).getD .null)
          (((flatten new "").lookup k).getD .null) = true := hc
      rw [if_pos hc', ih, countP_allEntries_bucketAppend]
      simp only [leafEntriesList, List.filter_cons, hc, List.map_cons, List.countP_cons]
      rcases hq : q (leafEntry (flatten old "") (flatten new "") (diffCtx old new) k) <;>
        simp [hq] <;> omega
    · have hc' : ¬ value_changed (((flatten old "").lookup k).getD .null)
          (((flatten new "").lookup k).getD .null) = true := hc
      rw [if_neg hc', ih]
      have hcf : keyChanged (flatten old "") (flatten new "") k = false :=
        Bool.eq_false_iff.mpr hc
      simp only [leafEntriesList, List.filter_cons, hcf]
      simp

/-- Master counting lemma: a predicate's count over all entries of the raw
diff result is its count over the synthetic entries plus its count over
the changed-leaf entries. -/
theorem countP_allEntries_rawDiff (old new : Value) (oldIf newIf : List String)
    (q : DiffEntry → Bool) :
    (allEntries (rawDiff old new oldIf newIf)).countP q =
      (synthEntries oldIf newIf).countP q +
        (leafEntriesList (flatten old "") (flatten new "") (diffCtx old new)
          (diffKeys old new)).countP q := by
  unfold rawDiff
  rw [countP_allEntries_leafFold, countP_allEntries_synthFold]
  simp [allEntries]

/-! ## Supporting facts about synthetic entries, keys and categories -/

/-- Synthetic interface entries always land in category `network`. -/
theorem category_of_net (n : String) : category_of ("network.interfaces." ++ n) = "network" := by
  unfold category_of
  rw [String.data_append, List.takeWhile_append, if_neg (by decide)]
  decide

theorem mem_sortedSetDiff (a b : List String) (n : String) :
    n ∈ sortedSetDiff a b ↔ n ∈ a ∧ ¬ n ∈ b := by
  unfold sortedSetDiff sortStr
  rw [(List.perm_insertionSort strLeRel _).mem_iff, List.mem_dedup, List.mem_filter]
  simp

theorem nodup_sortedSetDiff (a b : List String) : (sortedSetDiff a b).Nodup := by
  unfold sortedSetDiff sortStr
  exact (List.perm_insertionSort strLeRel _).nodup_iff.mpr (List.nodup_dedup _)

/-- Membership in `synthEntries`. -/
theorem mem_synthEntries (a b : List String) (e : DiffEntry) :
    e ∈ synthEntries a b ↔
      (∃ n ∈ sortedSetDiff a b, e = removedEntry n) ∨
        (∃ n ∈ sortedSetDiff b a, e = addedEntry n) := by
  unfold synthEntries
  rw [List.mem_append, List.mem_map, List.mem_map]
  constructor
  · rintro (⟨n, hn, rfl⟩ | ⟨n, hn, rfl⟩)
    · exact Or.inl ⟨n, hn, rfl⟩
    · exact Or.inr ⟨n, hn, rfl⟩
  · rintro (⟨n, hn, rfl⟩ | ⟨n, hn, rfl⟩)
    · exact Or.inl ⟨n, hn, rfl⟩
    · exact Or.inr ⟨n, hn, rfl⟩

/-- A successful association-list lookup means the key occurs. -/
theorem mem_of_lookup_some {α : Type} (l : List (String × α)) (k : String) (v : α)
    (h : l.lookup k = some v) : k ∈ l.map Prod.fst := by
  induction l with
  | nil => cases h
  | cons p t ih =>
    obtain ⟨k0, v0⟩ := p
    by_cases hk : k = k0
    · subst hk; simp
    · simp only [List.lookup, beq_eq_false_iff_ne.mpr hk] at h
      simp [ih h]

/-- A changed address occurs in the sorted union of addresses the diff
walks. -/
theorem keyChanged_mem_diffKeys (old new : Value) (k : String)
    (h : keyChanged (flatten old "") (flatten new "") k = true) :
    k ∈ diffKeys old new := by
  unfold diffKeys sortStr
  rw [(List.perm_insertionSort strLeRel _).mem_iff, List.mem_dedup, List.mem_append]
  unfold keyChanged at h
  rcases ho : (flatten old "").lookup k with _ | v
  · rcases hn : (flatten new "").lookup k with _ | w
    · rw [ho, hn] at h
      simp [value_changed, pyEq] at h
    · exact Or.inr (mem_of_lookup_some _ _ _ hn)
  · exact Or.inl (mem_of_lookup_some _ _ _ ho)

theorem nodup_diffKeys (old new : Value) : (diffKeys old new).Nodup := by
  unfold diffKeys sortStr
  exact (List.perm_insertionSort strLeRel _).nodup_iff.mpr (List.nodup_dedup _)

/-- Counting over a mapped list whose predicate singles out one input. -/
theorem countP_map_singleton {α β : Type} [DecidableEq α] (ks : List α) (f : α → β)
    (q : β → Bool) (k : α) (hq : ∀ x, q (f x) = true ↔ x = k) (hnd : ks.Nodup) :
    ((ks.map f).countP q) = if k ∈ ks then 1 else 0 := by
  induction ks with
  | nil => simp
  | cons x t ih =>
    simp only [List.nodup_cons] at hnd
    rw [List.map_cons, List.countP_cons]
    by_cases hx : x = k
    · subst hx
      rw [ih hnd.2, if_neg hnd.1, if_pos (List.mem_cons_self _ _)]
      simp [(hq x).mpr rfl]
    · have : q (f x) = false := by
        rcases hqq : q (f x) with _ | _
        · rfl
        · exact absurd ((hq x).mp hqq) hx
      rw [this, ih hnd.2]
      by_cases hk : k ∈ t
      · simp [hk, List.mem_cons]
      · have hkx : ¬ k ∈ x :: t := by
          rw [List.mem_cons]
          rintro (hh | hh)
          · exact hx hh.symm
          · exact hk hh
        simp [hk, hkx]

/-! ## The diff result as a function of the two documents -/

/-- The unfiltered diff result of one run (empty when the run raises). -/
def diffResultOf (old new : Value) : DiffResult :=
  (diff_dumps old new false).getD []

theorem isSome_ifaceKeys_of_diff (old new : Value) (oc : Bool)
    (h : (diff_dumps old new oc).isSome = true) :
    (ifaceKeys old).isSome = true ∧ (ifaceKeys new).isSome = true := by
  unfold diff_dumps at h
  rcases ho : ifaceKeys old with _ | a <;> rcases hn : ifaceKeys new with _ | b <;>
    rw [ho, hn] at h <;> simp_all

theorem diffResultOf_eq_rawDiff (old new : Value)
    (h : (diff_dumps old new false).isSome = true) :
    diffResultOf old new =
      rawDiff old new ((ifaceKeys old).getD []) ((ifaceKeys new).getD []) := by
  obtain ⟨ho, hn⟩ := isSome_ifaceKeys_of_diff old new false h
  rcases ho' : ifaceKeys old with _ | a
  · rw [ho'] at ho; cases ho
  rcases hn' : ifaceKeys new with _ | b
  · rw [hn'] at hn; cases hn
  unfold diffResultOf
  rw [diff_dumps_eq_rawDiff old new false a b ho' hn']
  rfl

/-- The entry the diff walk makes at a changed address has that address as
path, the two looked-up values, and the classifier's verdict. -/
theorem leafEntry_fields (fOld fNew : List (String × Scalar)) (ctx : Bool) (k : String) :
    (leafEntry fOld fNew ctx k).path = k ∧
    (leafEntry fOld fNew ctx k).old = (fOld.lookup k).getD .null ∧
    (leafEntry fOld fNew ctx k).new = (fNew.lookup k).getD .null ∧
    (leafEntry fOld fNew ctx k).severity =
      (severity_of k ((fOld.lookup k).getD .null) ((fNew.lookup k).getD .null) ctx).1 ∧
    (leafEntry fOld fNew ctx k).note =
      (severity_of k ((fOld.lookup k).getD .null) ((fNew.lookup k).getD .null) ctx).2 :=
  ⟨rfl, rfl, rfl, rfl, rfl⟩

/-- The per-address predicate that identifies the ordinary (non-synthetic)
diff entry for address `k`. -/
def leafProbe (fOld fNew : List (String × Scalar)) (k : String) (e : DiffEntry) : Bool :=
  e.path == k && e.old == (fOld.lookup k).getD .null &&
    e.new == (fNew.lookup k).getD .null &&
    e.note != some "interface removed" && e.note != some "interface added"

theorem leafProbe_leafEntry (fOld fNew : List (String × Scalar)) (ctx : Bool) (k x : String) :
    leafProbe fOld fNew k (leafEntry fOld fNew ctx x) = true ↔ x = k := by
  constructor
  · intro h
    unfold leafProbe at h
    simp only [Bool.and_eq_true, beq_iff_eq] at h
    exact h.1.1.1.1
  · rintro rfl
    unfold leafProbe
    have hnote := severity_of_note_ne_synth x ((fOld.lookup x).getD .null)
      ((fNew.lookup x).getD .null) ctx
    simp only [Bool.and_eq_true, beq_iff_eq, bne_iff_ne]
    exact ⟨⟨⟨⟨rfl, rfl⟩, rfl⟩, hnote.1⟩, hnote.2⟩

/-- Synthetic entries never satisfy a leaf probe. -/
theorem leafProbe_synth_false (fOld fNew : List (String × Scalar)) (k : String)
    (a b : List String) (e : DiffEntry) (he : e ∈ synthEntries a b) :
    leafProbe fOld fNew k e = false := by
  rcases (mem_synthEntries a b e).mp he with ⟨n, _, rfl⟩ | ⟨n, _, rfl⟩ <;>
    simp [leafProbe, removedEntry, addedEntry]

/-- The count of the leaf probe over the changed-leaf entries is one
exactly when the address changed. -/
theorem countP_leafProbe_leafEntries (old new : Value) (k : String)
    (hk : keyChanged (flatten old "") (flatten new "") k = true) :
    (leafEntriesList (flatten old "") (flatten new "") (diffCtx old new)
      (diffKeys old new)).countP (leafProbe (flatten old "") (flatten new "") k) = 1 := by
  unfold leafEntriesList
  rw [countP_map_singleton _ _ _ k
    (fun x => leafProbe_leafEntry (flatten old "") (flatten new "") (diffCtx old new) k x)
    ((nodup_diffKeys old new).filter _)]
  rw [if_pos (List.mem_filter.mpr ⟨keyChanged_mem_diffKeys old new k hk, hk⟩)]

/-- **C2.**  A leaf DiffEntry for address `k` is emitted exactly when the
old and new values differ under Python equality; a string never equals a
number, so the spec's `"60"` versus `60` example is indeed a change — but
Python's numeric cross-type equality makes `true` equal `1` and `false`
equal `0`, so those pairs are treated as unchanged (see the
counterexample). -/
theorem claim_C2 (old new : Value) (k : String)
    (h : (diff_dumps old new false).isSome = true) :
    ((∃ e ∈ allEntries (diffResultOf old new),
        leafProbe (flatten old "") (flatten new "") k e = true) ↔
      keyChanged (flatten old "") (flatten new "") k = true) ∧
    (∀ s n, value_changed (.str s) (.int n) = true) ∧
    value_changed (.bool true) (.int 1) = false ∧
    value_changed (.bool false) (.int 0) = false := by
  refine ⟨?_, fun s n => rfl, by decide, by decide⟩
  rw [diffResultOf_eq_rawDiff old new h]
  constructor
  · intro he
    have hpos : 0 < (allEntries (rawDiff old new ((ifaceKeys old).getD [])
        ((ifaceKeys new).getD []))).countP (leafProbe (flatten old "") (flatten new "") k) :=
      List.countP_pos.mpr he
    rw [countP_allEntries_rawDiff] at hpos
    have hsynth : (synthEntries ((ifaceKeys old).getD []) ((ifaceKeys new).getD [])).countP
        (leafProbe (flatten old "") (flatten new "") k) = 0 :=
      List.countP_eq_zero.mpr (fun e he =>
        by simp [leafProbe_synth_false (flatten old "") (flatten new "") k _ _ e he])
    rw [hsynth, Nat.zero_add] at hpos
    obtain ⟨e, he, hq⟩ := List.countP_pos.mp hpos
    unfold leafEntriesList at he
    obtain ⟨x, hx, rfl⟩ := List.mem_map.mp he
    have hxk : x = k :=
      (leafProbe_leafEntry (flatten old "") (flatten new "") (diffCtx old new) k x).mp hq
    subst hxk
    exact (List.mem_filter.mp hx).2
  · intro hk
    apply List.countP_pos.mp
    rw [countP_allEntries_rawDiff]
    have := countP_leafProbe_leafEntries old new k hk
    omega

/-- Counterexample for **C2** as frozen: at address `a` the old document
holds boolean `true` and the new holds number `1` — values of different
types — yet the diff result is empty, because Python's `!=` treats
`True` and `1` as equal. -/
theorem claim_C2_counterexample :
    (flatten (Value.dict [("a", .scalar (.bool true))]) "").lookup "a" = some (.bool true) ∧
    (flatten (Value.dict [("a", .scalar (.int 1))]) "").lookup "a" = some (.int 1) ∧
    diff_dumps (Value.dict [("a", .scalar (.bool true))])
      (Value.dict [("a", .scalar (.int 1))]) false = some [] := by
  refine ⟨by decide, by decide, by decide⟩

/-- Witness for C2 on a genuinely changed address. -/
theorem claim_C2_witness :
    (diff_dumps (Value.dict [("kernel", .dict [("cmdline", .scalar (.str "quiet"))])])
        (Value.dict [("kernel", .dict [("cmdline", .scalar (.str "mitigations=off"))])])
        false).isSome = true ∧
    ((∃ e ∈ allEntries (diffResultOf
          (Value.dict [("kernel", .dict [("cmdline", .scalar (.str "quiet"))])])
          (Value.dict [("kernel", .dict [("cmdline", .scalar (.str "mitigations=off"))])])),
        leafProbe
          (flatten (Value.dict [("kernel", .dict [("cmdline", .scalar (.str "quiet"))])]) "")
          (flatten (Value.dict [("kernel", .dict [("cmdline", .scalar (.str "mitigations=off"))])]) "")
          "kernel.cmdline" e = true) ↔
      keyChanged
        (flatten (Value.dict [("kernel", .dict [("cmdline", .scalar (.str "quiet"))])]) "")
        (flatten (Value.dict [("kernel", .dict [("cmdline", .scalar (.str "mitigations=off"))])]) "")
        "kernel.cmdline" = true) :=
  ⟨by decide,
   (claim_C2 (Value.dict [("kernel", .dict [("cmdline", .scalar (.str "quiet"))])])
     (Value.dict [("kernel", .dict [("cmdline", .scalar (.str "mitigations=off"))])])
     "kernel.cmdline" (by decide)).1⟩

/-! ## C7 and C9: partitioning and synthetic entries -/

theorem removedEntry_inj (x n : String) : removedEntry x = removedEntry n ↔ x = n := by
  constructor
  · intro h
    have hp := congrArg DiffEntry.path h
    simp only [removedEntry] at hp
    have := congrArg String.data hp
    rw [String.data_append, String.data_append] at this
    exact String.ext (List.append_cancel_left this)
  · rintro rfl; rfl

theorem addedEntry_inj (x n : String) : addedEntry x = addedEntry n ↔ x = n := by
  constructor
  · intro h
    have hp := congrArg DiffEntry.path h
    simp only [addedEntry] at hp
    have := congrArg String.data hp
    rw [String.data_append, String.data_append] at this
    exact String.ext (List.append_cancel_left this)
  · rintro rfl; rfl

theorem addedEntry_ne_removedEntry (x n : String) : addedEntry x ≠ removedEntry n := by
  intro h
  have := congrArg DiffEntry.old h
  simp [addedEntry, removedEntry] at this

/-- Exactly one synthetic removal entry per removed interface name. -/
theorem countP_removed_synth (oldIf newIf : List String) (n : String)
    (h1 : n ∈ oldIf) (h2 : ¬ n ∈ newIf) :
    (synthEntries oldIf newIf).countP (fun e => e == removedEntry n) = 1 := by
  unfold synthEntries
  rw [List.countP_append]
  have hrem : ((sortedSetDiff oldIf newIf).map removedEntry).countP
      (fun e => e == removedEntry n) = 1 := by
    rw [countP_map_singleton _ _ _ n
      (fun x => by simp [removedEntry_inj]) (nodup_sortedSetDiff oldIf newIf)]
    rw [if_pos ((mem_sortedSetDiff oldIf newIf n).mpr ⟨h1, h2⟩)]
  have hadd : ((sortedSetDiff newIf oldIf).map addedEntry).countP
      (fun e => e == removedEntry n) = 0 := by
    apply List.countP_eq_zero.mpr
    intro e he
    obtain ⟨x, _, rfl⟩ := List.mem_map.mp he
    simp [addedEntry_ne_removedEntry x n]
  omega

/-- Exactly one synthetic addition entry per added interface name. -/
theorem countP_added_synth (oldIf newIf : List String) (n : String)
    (h1 : n ∈ newIf) (h2 : ¬ n ∈ oldIf) :
    (synthEntries oldIf newIf).countP (fun e => e == addedEntry n) = 1 := by
  unfold synthEntries
  rw [List.countP_append]
  have hrem : ((sortedSetDiff oldIf newIf).map removedEntry).countP
      (fun e => e == addedEntry n) = 0 := by
    apply List.countP_eq_zero.mpr
    intro e he
    obtain ⟨x, _, rfl⟩ := List.mem_map.mp he
    simp only [beq_iff_eq]
    intro hcontra
    exact addedEntry_ne_removedEntry n x hcontra.symm
  have hadd : ((sortedSetDiff newIf oldIf).map addedEntry).countP
      (fun e => e == addedEntry n) = 1 := by
    rw [countP_map_singleton _ _ _ n
      (fun x => by simp [addedEntry_inj]) (nodup_sortedSetDiff newIf oldIf)]
    rw [if_pos ((mem_sortedSetDiff newIf oldIf n).mpr ⟨h1, h2⟩)]
  omega

/-- Leaf entries never equal a synthetic entry (their notes differ). -/
theorem countP_synthProbe_leafEntries_zero (old new : Value) (keys : List String)
    (n : String) :
    (leafEntriesList (flatten old "") (flatten new "") (diffCtx old new) keys).countP
        (fun e => e == removedEntry n) = 0 ∧
    (leafEntriesList (flatten old "") (flatten new "") (diffCtx old new) keys).countP
        (fun e => e == addedEntry n) = 0 := by
  constructor <;>
  · apply List.countP_eq_zero.mpr
    intro e he
    unfold leafEntriesList at he
    obtain ⟨x, _, rfl⟩ := List.mem_map.mp he
    have hnote := severity_of_note_ne_synth x
      (((flatten old "").lookup x).getD .null) (((flatten new "").lookup x).getD .null)
      (diffCtx old new)
    simp only [beq_iff_eq]
    intro hcontra
    have := congrArg DiffEntry.note hcontra
    simp only [leafEntry, removedEntry, addedEntry] at this
    first
      | exact hnote.1 this
      | exact hnote.2 this

/-- A changed-leaf entry is never a synthetic interface entry. -/
theorem leafEntriesList_ne_synth (old new : Value) (keys : List String) (e : DiffEntry)
    (he : e ∈ leafEntriesList (flatten old "") (flatten new "") (diffCtx old new) keys)
    (n : String) : e ≠ removedEntry n ∧ e ≠ addedEntry n := by
  unfold leafEntriesList at he
  obtain ⟨x, _, rfl⟩ := List.mem_map.mp he
  have hnote := severity_of_note_ne_synth x
    (((flatten old "").lookup x).getD .null) (((flatten new "").lookup x).getD .null)
    (diffCtx old new)
  constructor <;> intro hcontra
  · exact hnote.1 (congrArg DiffEntry.note hcontra)
  · exact hnote.2 (congrArg DiffEntry.note hcontra)

/-- **C9.**  With no filtering: every entry of a diff run sits in the
bucket named by the substring of its path before the first `.` (and bucket
names are pairwise distinct, so that bucket is unique); every changed leaf
address produces exactly one ordinary entry (identified by its path, its
two values, and not carrying a synthetic-interface note); and every
structural interface removal or addition produces exactly one synthetic
entry. -/
theorem claim_C9 (old new : Value)
    (h : (diff_dumps old new false).isSome = true) :
    (∀ c l, (c, l) ∈ diffResultOf old new → ∀ e ∈ l, category_of e.path = c) ∧
    ((diffResultOf old new).map Prod.fst).Nodup ∧
    (∀ k, keyChanged (flatten old "") (flatten new "") k = true →
      (allEntries (diffResultOf old new)).countP
        (leafProbe (flatten old "") (flatten new "") k) = 1) ∧
    (∀ n, n ∈ (ifaceKeys old).getD [] → ¬ n ∈ (ifaceKeys new).getD [] →
      (allEntries (diffResultOf old new)).countP (fun e => e == removedEntry n) = 1) ∧
    (∀ n, n ∈ (ifaceKeys new).getD [] → ¬ n ∈ (ifaceKeys old).getD [] →
      (allEntries (diffResultOf old new)).countP (fun e => e == addedEntry n) = 1) := by
  rw [diffResultOf_eq_rawDiff old new h]
  refine ⟨?_, catsNodup_rawDiff old new _ _, ?_, ?_, ?_⟩
  · intro c l hmem e he
    have hnd := catsNodup_rawDiff old new ((ifaceKeys old).getD []) ((ifaceKeys new).getD [])
    have hl := mem_eq_lookup_of_catsNodup _ c l hnd hmem
    have hleq : l = bucketOf (rawDiff old new ((ifaceKeys old).getD [])
        ((ifaceKeys new).getD [])) c := by
      unfold bucketOf; rw [hl]; rfl
    rw [hleq, bucketOf_rawDiff] at he
    rcases List.mem_append.mp he with he' | he'
    · by_cases hc : c = "network"
      · rw [if_pos hc] at he'
        rcases (mem_synthEntries _ _ e).mp he' with ⟨n, _, rfl⟩ | ⟨n, _, rfl⟩ <;>
          rw [hc] <;> exact category_of_net n
      · rw [if_neg hc] at he'
        cases he'
    · have := (List.mem_filter.mp he').2
      exact beq_iff_eq.mp this
  · intro k hk
    rw [countP_allEntries_rawDiff]
    have hsynth : (synthEntries ((ifaceKeys old).getD []) ((ifaceKeys new).getD [])).countP
        (leafProbe (flatten old "") (flatten new "") k) = 0 :=
      List.countP_eq_zero.mpr (fun e he =>
        by simp [leafProbe_synth_false (flatten old "") (flatten new "") k _ _ e he])
    rw [hsynth, countP_leafProbe_leafEntries old new k hk]
  · intro n h1 h2
    rw [countP_allEntries_rawDiff, countP_removed_synth _ _ n h1 h2,
      (countP_synthProbe_leafEntries_zero old new (diffKeys old new) n).1]
  · intro n h1 h2
    rw [countP_allEntries_rawDiff, countP_added_synth _ _ n h1 h2,
      (countP_synthProbe_leafEntries_zero old new (diffKeys old new) n).2]

/-- Example old snapshot: two interfaces, one about to vanish. -/
def exNetOld : Value :=
  .dict [("network", .dict [("interfaces", .dict [
    ("eth0", .dict [("mtu", .scalar (.int 1500))]),
    ("eth1", .dict [("mtu", .scalar (.int 9000))])])])]

/-- Example new snapshot: one interface changed, one added. -/
def exNetNew : Value :=
  .dict [("network", .dict [("interfaces", .dict [
    ("eth0", .dict [("mtu", .scalar (.int 9000))]),
    ("eth2", .dict [("mtu", .scalar (.int 1500))])])])]

/-- Witness for C9 on the example snapshots. -/
theorem claim_C9_witness :
    (diff_dumps exNetOld exNetNew false).isSome = true ∧
    keyChanged (flatten exNetOld "") (flatten exNetNew "") "network.interfaces.eth0.mtu" = true ∧
    (allEntries (diffResultOf exNetOld exNetNew)).countP
      (leafProbe (flatten exNetOld "") (flatten exNetNew "") "network.interfaces.eth0.mtu") = 1 ∧
    "eth1" ∈ (ifaceKeys exNetOld).getD [] ∧ ¬ "eth1" ∈ (ifaceKeys exNetNew).getD [] ∧
    (allEntries (diffResultOf exNetOld exNetNew)).countP
      (fun e => e == removedEntry "eth1") = 1 :=
  ⟨by decide, by decide,
   (claim_C9 exNetOld exNetNew (by decide)).2.2.1 "network.interfaces.eth0.mtu" (by decide),
   by decide, by decide,
   (claim_C9 exNetOld exNetNew (by decide)).2.2.2.1 "eth1" (by decide) (by decide)⟩

/-- **C7.**  For each interface name present only in the old document, the
diff run emits exactly one synthetic removal entry
`{path: network.interfaces.<name>, old: "present", new: "absent",
severity: INFO, note: "interface removed"}` into the `network` bucket (and
nowhere else); symmetrically for names present only in the new document;
and these synthetic entries are in addition to — not instead of — the
leaf-level entries, each changed descendant address still producing its
own entry. -/
theorem claim_C7 (old new : Value)
    (h : (diff_dumps old new false).isSome = true) :
    (∀ n, n ∈ (ifaceKeys old).getD [] → ¬ n ∈ (ifaceKeys new).getD [] →
      (bucketOf (diffResultOf old new) "network").countP
        (fun e => e == removedEntry n) = 1 ∧
      (allEntries (diffResultOf old new)).countP (fun e => e == removedEntry n) = 1) ∧
    (∀ n, n ∈ (ifaceKeys new).getD [] → ¬ n ∈ (ifaceKeys old).getD [] →
      (bucketOf (diffResultOf old new) "network").countP
        (fun e => e == addedEntry n) = 1 ∧
      (allEntries (diffResultOf old new)).countP (fun e => e == addedEntry n) = 1) ∧
    (∀ k, keyChanged (flatten old "") (flatten new "") k = true →
      (allEntries (diffResultOf old new)).countP
        (leafProbe (flatten old "") (flatten new "") k) = 1) := by
  rw [diffResultOf_eq_rawDiff old new h]
  refine ⟨?_, ?_, ?_⟩
  · intro n h1 h2
    constructor
    · rw [bucketOf_rawDiff, if_pos rfl, List.countP_append,
        countP_removed_synth _ _ n h1 h2]
      have hzero : ((leafEntriesList (flatten old "") (flatten new "") (diffCtx old new)
          (diffKeys old new)).filter
            (fun e => category_of e.path == "network")).countP
          (fun e => e == removedEntry n) = 0 := by
        apply List.countP_eq_zero.mpr
        intro e he
        have hm := (List.mem_filter.mp he).1
        simp only [beq_iff_eq]
        exact (leafEntriesList_ne_synth old new _ e hm n).1
      rw [hzero]
    · rw [countP_allEntries_rawDiff, countP_removed_synth _ _ n h1 h2,
        (countP_synthProbe_leafEntries_zero old new (diffKeys old new) n).1]
  · intro n h1 h2
    constructor
    · rw [bucketOf_rawDiff, if_pos rfl, List.countP_append,
        countP_added_synth _ _ n h1 h2]
      have hzero : ((leafEntriesList (flatten old "") (flatten new "") (diffCtx old new)
          (diffKeys old new)).filter
            (fun e => category_of e.path == "network")).countP
          (fun e => e == addedEntry n) = 0 := by
        apply List.countP_eq_zero.mpr
        intro e he
        have hm := (List.mem_filter.mp he).1
        simp only [beq_iff_eq]
        exact (leafEntriesList_ne_synth old new _ e hm n).2
      rw [hzero]
    · rw [countP_allEntries_rawDiff, countP_added_synth _ _ n h1 h2,
        (countP_synthProbe_leafEntries_zero old new (diffKeys old new) n).2]
  · intro k hk
    rw [countP_allEntries_rawDiff]
    have hsynth : (synthEntries ((ifaceKeys old).getD []) ((ifaceKeys new).getD [])).countP
        (leafProbe (flatten old "") (flatten new "") k) = 0 :=
      List.countP_eq_zero.mpr (fun e he =>
        by simp [leafProbe_synth_false (flatten old "") (flatten new "") k _ _ e he])
    rw [hsynth, countP_leafProbe_leafEntries old new k hk]

/-- Witness for C7 on the example snapshots: `eth1` removed, `eth2` added,
and the removed interface's descendant `mtu` leaf still yields its own
entry. -/
theorem claim_C7_witness :
    (diff_dumps exNetOld exNetNew false).isSome = true ∧
    "eth1" ∈ (ifaceKeys exNetOld).getD [] ∧ ¬ "eth1" ∈ (ifaceKeys exNetNew).getD [] ∧
    (bucketOf (diffResultOf exNetOld exNetNew) "network").countP
      (fun e => e == removedEntry "eth1") = 1 ∧
    "eth2" ∈ (ifaceKeys exNetNew).getD [] ∧ ¬ "eth2" ∈ (ifaceKeys exNetOld).getD [] ∧
    (bucketOf (diffResultOf exNetOld exNetNew) "network").countP
      (fun e => e == addedEntry "eth2") = 1 ∧
    keyChanged (flatten exNetOld "") (flatten exNetNew "") "network.interfaces.eth1.mtu" = true ∧
    (allEntries (diffResultOf exNetOld exNetNew)).countP
      (leafProbe (flatten exNetOld "") (flatten exNetNew "") "network.interfaces.eth1.mtu") = 1 :=
  ⟨by decide, by decide, by decide,
   ((claim_C7 exNetOld exNetNew (by decide)).1 "eth1" (by decide) (by decide)).1,
   by decide, by decide,
   ((claim_C7 exNetOld exNetNew (by decide)).2.1 "eth2" (by decide) (by decide)).1,
   by decide,
   (claim_C7 exNetOld exNetNew (by decide)).2.2 "network.interfaces.eth1.mtu" (by decide)⟩

/-! ## C8: the JSON entry shape -/

/-- Membership in all entries of the raw diff splits into synthetic and
changed-leaf membership. -/
theorem mem_allEntries_rawDiff (old new : Value) (oldIf newIf : List String) (e : DiffEntry) :
    e ∈ allEntries (rawDiff old new oldIf newIf) ↔
      e ∈ synthEntries oldIf newIf ∨
        e ∈ leafEntriesList (flatten old "") (flatten new "") (diffCtx old new)
          (diffKeys old new) := by
  have hcount := countP_allEntries_rawDiff old new oldIf newIf (fun x => x == e)
  constructor
  · intro he
    have hpos : 0 < (allEntries (rawDiff old new oldIf newIf)).countP (fun x => x == e) :=
      List.countP_pos.mpr ⟨e, he, beq_self_eq_true e⟩
    rw [hcount] at hpos
    by_cases hA : 0 < (synthEntries oldIf newIf).countP (fun x => x == e)
    · obtain ⟨a, ha, hae⟩ := List.countP_pos.mp hA
      rw [beq_iff_eq.mp hae] at ha
      exact Or.inl ha
    · have hB : 0 < (leafEntriesList (flatten old "") (flatten new "") (diffCtx old new)
          (diffKeys old new)).countP (fun x => x == e) := by omega
      obtain ⟨a, ha, hae⟩ := List.countP_pos.mp hB
      rw [beq_iff_eq.mp hae] at ha
      exact Or.inr ha
  · intro he
    have hpos : 0 < (allEntries (rawDiff old new oldIf newIf)).countP (fun x => x == e) := by
      rw [hcount]
      rcases he with he | he
      · have : 0 < (synthEntries oldIf newIf).countP (fun x => x == e) :=
          List.countP_pos.mpr ⟨e, he, beq_self_eq_true e⟩
        omega
      · have : 0 < (leafEntriesList (flatten old "") (flatten new "") (diffCtx old new)
            (diffKeys old new)).countP (fun x => x == e) :=
          List.countP_pos.mpr ⟨e, he, beq_self_eq_true e⟩
        omega
    obtain ⟨a, ha, hae⟩ := List.countP_pos.mp hpos
    rwa [beq_iff_eq.mp hae] at ha

/-- **C8 (amended).**  Every entry serialized to the JSON diff is an object
with exactly the five keys `path, old, new, severity, note`, emitted by
`json.dump(..., sort_keys=True)` in ascending key order
(`new, note, old, path, severity`); `severity` is always one of the three
literal level names; and `note` is always present — it carries the rule's
note when there is one and JSON `null` otherwise (it is not omitted). -/
theorem claim_C8 (old new : Value) (e : DiffEntry)
    (h : (diff_dumps old new false).isSome = true)
    (he : e ∈ allEntries (diffResultOf old new)) :
    (entryToJsonPairs e).map Prod.fst = ["new", "note", "old", "path", "severity"] ∧
    (e.severity = "CRITICAL" ∨ e.severity = "WARNING" ∨ e.severity = "INFO") ∧
    (entryToJsonPairs e).lookup "note" =
      some (match e.note with | some s => .str s | none => .null) := by
  refine ⟨rfl, ?_, rfl⟩
  rw [diffResultOf_eq_rawDiff old new h] at he
  rcases (mem_allEntries_rawDiff old new _ _ e).mp he with he' | he'
  · rcases (mem_synthEntries _ _ e).mp he' with ⟨n, _, rfl⟩ | ⟨n, _, rfl⟩
    · exact Or.inr (Or.inr rfl)
    · exact Or.inr (Or.inr rfl)
  · unfold leafEntriesList at he'
    obtain ⟨x, _, rfl⟩ := List.mem_map.mp he'
    exact severity_of_total x _ _ _

/-- Example kernel-drift snapshots for the C8 counterexample. -/
def exKernelOld : Value := .dict [("kernel", .dict [("uname",
  .dict [("release", .scalar (.str "5.10"))])])]

/-- The new side of the kernel-drift example. -/
def exKernelNew : Value := .dict [("kernel", .dict [("uname",
  .dict [("release", .scalar (.str "6.1"))])])]

/-- Counterexample for **C8** as frozen: the `kernel.uname.release` rule
specifies no note, yet the JSON object for the resulting entry still
carries a `note` key (with value `null`) — the note field is not omitted
when the rule has no note. -/
theorem claim_C8_counterexample :
    (allEntries (diffResultOf exKernelOld exKernelNew)).length = 1 ∧
    ((allEntries (diffResultOf exKernelOld exKernelNew)).headD default).note = none ∧
    ("note", Scalar.null) ∈
      entryToJsonPairs ((allEntries (diffResultOf exKernelOld exKernelNew)).headD default) := by
  refine ⟨by decide, by decide, by decide⟩

/-- Witness for C8 at the kernel-drift example's single entry. -/
theorem claim_C8_witness :
    (diff_dumps exKernelOld exKernelNew false).isSome = true ∧
    ((allEntries (diffResultOf exKernelOld exKernelNew)).headD default) ∈
      allEntries (diffResultOf exKernelOld exKernelNew) ∧
    ((entryToJsonPairs ((allEntries (diffResultOf exKernelOld exKernelNew)).headD default)).map
        Prod.fst = ["new", "note", "old", "path", "severity"] ∧
      (((allEntries (diffResultOf exKernelOld exKernelNew)).headD default).severity = "CRITICAL" ∨
        ((allEntries (diffResultOf exKernelOld exKernelNew)).headD default).severity = "WARNING" ∨
        ((allEntries (diffResultOf exKernelOld exKernelNew)).headD default).severity = "INFO") ∧
      (entryToJsonPairs ((allEntries (diffResultOf exKernelOld exKernelNew)).headD default)).lookup
          "note" =
        some (match ((allEntries (diffResultOf exKernelOld exKernelNew)).headD default).note with
          | some s => .str s | none => .null)) :=
  ⟨by decide, by decide,
   claim_C8 exKernelOld exKernelNew _ (by decide) (by decide)⟩

/-! ## C1: ordering -/

theorem charsLe_total (a : List Char) : ∀ b, charsLe a b = true ∨ charsLe b a = true := by
  induction a with
  | nil => intro b; exact Or.inl rfl
  | cons x xs ih =>
    intro b
    cases b with
    | nil => exact Or.inr rfl
    | cons y ys =>
      unfold charsLe
      rcases Nat.lt_trichotomy x.toNat y.toNat with hlt | heq | hgt
      · left; rw [if_pos hlt]
      · rcases ih ys with h | h
        · left; rw [if_neg (by omega), if_pos heq]; exact h
        · right; rw [if_neg (by omega), if_pos heq.symm]; exact h
      · right; rw [if_pos hgt]

theorem charsLe_trans (a : List Char) :
    ∀ b c, charsLe a b = true → charsLe b c = true → charsLe a c = true := by
  induction a with
  | nil => intro b c _ _; rfl
  | cons x xs ih =>
    intro b c h1 h2
    cases b with
    | nil => simp [charsLe] at h1
    | cons y ys =>
      cases c with
      | nil => simp [charsLe] at h2
      | cons z zs =>
        unfold charsLe at h1 h2 ⊢
        split_ifs at h1 h2 ⊢ <;> first
          | rfl
          | omega
          | exact ih ys zs h1 h2
          | simp_all

theorem strLe_total (a b : String) : strLe a b = true ∨ strLe b a = true :=
  charsLe_total a.data b.data

theorem strLe_trans (a b c : String) (h1 : strLe a b = true) (h2 : strLe b c = true) :
    strLe a c = true :=
  charsLe_trans a.data b.data c.data h1 h2

instance : IsTotal String strLeRel := ⟨strLe_total⟩
instance : IsTrans String strLeRel := ⟨strLe_trans⟩

theorem entryLe_total (x y : DiffEntry) : entryLe x y = true ∨ entryLe y x = true := by
  unfold entryLe
  rcases Nat.lt_trichotomy (sevRank x.severity) (sevRank y.severity) with hlt | heq | hgt
  · left; simp [hlt]
  · rcases strLe_total x.path y.path with h | h
    · left; simp [heq, h]
    · right; simp [heq.symm, h]
  · right; simp [hgt]

theorem entryLe_trans (x y z : DiffEntry) (h1 : entryLe x y = true)
    (h2 : entryLe y z = true) : entryLe x z = true := by
  unfold entryLe at h1 h2 ⊢
  simp only [Bool.or_eq_true, Bool.and_eq_true, decide_eq_true_eq] at h1 h2 ⊢
  rcases h1 with h1 | ⟨h1e, h1p⟩ <;> rcases h2 with h2 | ⟨h2e, h2p⟩
  · left; omega
  · left; omega
  · left; omega
  · right; exact ⟨by omega, strLe_trans _ _ _ h1p h2p⟩

instance : IsTotal DiffEntry entryLeRel := ⟨entryLe_total⟩
instance : IsTrans DiffEntry entryLeRel := ⟨entryLe_trans⟩

/-- The address walk of the diff is sorted ascending. -/
theorem diffKeys_sorted (old new : Value) : (diffKeys old new).Sorted strLeRel := by
  unfold diffKeys sortStr
  exact List.sorted_insertionSort strLeRel _

/-- The changed-leaf entries are produced in ascending path order. -/
theorem leafEntriesList_path_sorted (old new : Value) (c : String) :
    ((leafEntriesList (flatten old "") (flatten new "") (diffCtx old new)
      (diffKeys old new)).filter (fun e => category_of e.path == c)).Pairwise
        (fun x y => strLe x.path y.path = true) := by
  apply List.Pairwise.filter
  unfold leafEntriesList
  rw [List.pairwise_map]
  exact (diffKeys_sorted old new).filter _

/-- **C1 (amended).**  The severity-then-path ordering holds for the
Markdown report's per-category listing (`write_md` sorts each bucket by
severity rank ascending, tie-broken by ascending path, keeping the same
entries); the DiffResult itself — which is what the JSON output
serializes — instead lists each bucket as the synthetic interface entries
first, followed by the changed-leaf entries in ascending address order. -/
theorem claim_C1 (old new : Value)
    (h : (diff_dumps old new false).isSome = true) :
    ∀ c l, (c, l) ∈ diffResultOf old new →
      (mdSortedBucket l).Sorted entryLeRel ∧
      (mdSortedBucket l).Perm l ∧
      l = (if c = "network" then
            synthEntries ((ifaceKeys old).getD []) ((ifaceKeys new).getD [])
          else []) ++
          (leafEntriesList (flatten old "") (flatten new "") (diffCtx old new)
            (diffKeys old new)).filter (fun e => category_of e.path == c) ∧
      ((leafEntriesList (flatten old "") (flatten new "") (diffCtx old new)
        (diffKeys old new)).filter (fun e => category_of e.path == c)).Pairwise
          (fun x y => strLe x.path y.path = true) := by
  rw [diffResultOf_eq_rawDiff old new h]
  intro c l hmem
  have hnd := catsNodup_rawDiff old new ((ifaceKeys old).getD []) ((ifaceKeys new).getD [])
  have hl := mem_eq_lookup_of_catsNodup _ c l hnd hmem
  have hleq : l = bucketOf (rawDiff old new ((ifaceKeys old).getD [])
      ((ifaceKeys new).getD [])) c := by
    unfold bucketOf; rw [hl]; rfl
  refine ⟨List.sorted_insertionSort entryLeRel l, List.perm_insertionSort entryLeRel l, ?_, ?_⟩
  · rw [hleq, bucketOf_rawDiff]
  · exact leafEntriesList_path_sorted old new c

/-- Example documents for the C1 counterexample: removing an interface
with a critical offload feature puts an INFO synthetic entry before a
CRITICAL leaf entry in the raw `network` bucket. -/
def exFeatOld : Value :=
  .dict [("network", .dict [("interfaces", .dict [("eth0", .dict [("ethtool",
    .dict [("features", .dict [("tso", .scalar (.str "on"))])])])])])]

/-- The new side of the feature example: the interface is gone. -/
def exFeatNew : Value :=
  .dict [("network", .dict [("interfaces", .dict [])])]

/-- Adjacent-pair check for the severity-then-path ordering inside one
bucket sequence. -/
def sevPathSorted : List DiffEntry → Bool
  | [] => true
  | [_] => true
  | x :: y :: t => entryLe x y && sevPathSorted (y :: t)

/-- Counterexample for **C1** as frozen: in the DiffResult produced by one
diff run (which is what `write_json` serializes), the `network` bucket
holds the INFO synthetic removal entry *before* a CRITICAL leaf entry, so
the bucket sequence is not sorted by severity rank. -/
theorem claim_C1_counterexample :
    (diff_dumps exFeatOld exFeatNew false).isSome = true ∧
    sevPathSorted (bucketOf (diffResultOf exFeatOld exFeatNew) "network") = false := by
  refine ⟨by decide, by decide⟩

/-- Witness for C1 on the feature example's `network` bucket. -/
theorem claim_C1_witness :
    (diff_dumps exFeatOld exFeatNew false).isSome = true ∧
    ("network", bucketOf (diffResultOf exFeatOld exFeatNew) "network") ∈
      diffResultOf exFeatOld exFeatNew ∧
    ((mdSortedBucket (bucketOf (diffResultOf exFeatOld exFeatNew) "network")).Sorted
        entryLeRel ∧
      (mdSortedBucket (bucketOf (diffResultOf exFeatOld exFeatNew) "network")).Perm
        (bucketOf (diffResultOf exFeatOld exFeatNew) "network") ∧
      bucketOf (diffResultOf exFeatOld exFeatNew) "network" =
        (if "network" = "network" then
          synthEntries ((ifaceKeys exFeatOld).getD []) ((ifaceKeys exFeatNew).getD [])
        else []) ++
          (leafEntriesList (flatten exFeatOld "") (flatten exFeatNew "")
            (diffCtx exFeatOld exFeatNew) (diffKeys exFeatOld exFeatNew)).filter
              (fun e => category_of e.path == "network") ∧
      ((leafEntriesList (flatten exFeatOld "") (flatten exFeatNew "")
        (diffCtx exFeatOld exFeatNew) (diffKeys exFeatOld exFeatNew)).filter
          (fun e => category_of e.path == "network")).Pairwise
            (fun x y => strLe x.path y.path = true)) :=
  ⟨by decide, by decide,
   claim_C1 exFeatOld exFeatNew (by decide) "network"
     (bucketOf (diffResultOf exFeatOld exFeatNew) "network") (by decide)⟩

/-! ## C3: the flattener is injective on clean documents

Supporting character-level lemmas. -/

/-- No separator characters (`.`, `[`, `]`) occur in the list. -/
def noSepB (k : List Char) : Bool :=
  k.all (fun c => !(c = '.' || c = '[' || c = ']'))

/-- The list is empty or starts with an address separator. -/
def shapedB (s : List Char) : Bool :=
  match s with
  | [] => true
  | c :: _ => c = '.' || c = '['

/-- Splitting at the first occurrence of a character that occurs in
neither left part is unambiguous. -/
theorem append_cons_inj (c : Char) :
    ∀ (a1 a2 r1 r2 : List Char), ¬ c ∈ a1 → ¬ c ∈ a2 →
      a1 ++ c :: r1 = a2 ++ c :: r2 → a1 = a2 ∧ r1 = r2 := by
  intro a1
  induction a1 with
  | nil =>
    intro a2 r1 r2 _ h2 heq
    cases a2 with
    | nil => simpa using heq
    | cons y ys =>
      simp only [List.nil_append, List.cons_append, List.cons.injEq] at heq
      exact absurd (heq.1 ▸ List.mem_cons_self y ys) h2
  | cons x xs ih =>
    intro a2 r1 r2 h1 h2 heq
    cases a2 with
    | nil =>
      simp only [List.nil_append, List.cons_append, List.cons.injEq] at heq
      exact absurd (heq.1 ▸ List.mem_cons_self x xs) (by simpa [heq.1] using h1)
    | cons y ys =>
      simp only [List.cons_append, List.cons.injEq] at heq
      obtain ⟨hxy, htail⟩ := heq
      obtain ⟨ha, hr⟩ := ih ys r1 r2 (fun hc => h1 (List.mem_cons_of_mem _ hc))
        (fun hc => h2 (List.mem_cons_of_mem _ hc)) htail
      exact ⟨by rw [hxy, ha], hr⟩

/-- A separator-free prefix followed by a shaped suffix determines both
parts. -/
theorem clean_shaped_split :
    ∀ (k1 k2 s1 s2 : List Char), noSepB k1 = true → noSepB k2 = true →
      shapedB s1 = true → shapedB s2 = true →
      k1 ++ s1 = k2 ++ s2 → k1 = k2 ∧ s1 = s2 := by
  intro k1
  induction k1 with
  | nil =>
    intro k2 s1 s2 _ hk2 hs1 _ heq
    cases k2 with
    | nil => simpa using heq
    | cons y ys =>
      rw [List.nil_append] at heq
      rw [heq] at hs1
      simp only [List.cons_append, shapedB] at hs1
      have hy : y ∈ y :: ys := List.mem_cons_self y ys
      have := (List.all_eq_true.mp hk2) y hy
      simp only [Bool.not_eq_true', Bool.or_eq_false_iff, decide_eq_false_iff_not] at this
      rcases Bool.or_eq_true .. |>.mp hs1 with h | h
      · exact absurd (decide_eq_true_eq.mp h) this.1.1
      · exact absurd (decide_eq_true_eq.mp h) this.1.2
  | cons x xs ih =>
    intro k2 s1 s2 hk1 hk2 hs1 hs2 heq
    cases k2 with
    | nil =>
      rw [List.nil_append] at heq
      rw [← heq] at hs2
      simp only [List.cons_append, shapedB] at hs2
      have hx : x ∈ x :: xs := List.mem_cons_self x xs
      have := (List.all_eq_true.mp hk1) x hx
      simp only [Bool.not_eq_true', Bool.or_eq_false_iff, decide_eq_false_iff_not] at this
      rcases Bool.or_eq_true .. |>.mp hs2 with h | h
      · exact absurd (decide_eq_true_eq.mp h) this.1.1
      · exact absurd (decide_eq_true_eq.mp h) this.1.2
    | cons y ys =>
      simp only [List.cons_append, List.cons.injEq] at heq
      obtain ⟨hxy, htail⟩ := heq
      have hk1' : noSepB xs = true := by
        simp only [noSepB, List.all_cons, Bool.and_eq_true] at hk1
        exact hk1.2
      have hk2' : noSepB ys = true := by
        simp only [noSepB, List.all_cons, Bool.and_eq_true] at hk2
        exact hk2.2
      obtain ⟨ha, hr⟩ := ih ys s1 s2 hk1' hk2' hs1 hs2 htail
      exact ⟨by rw [hxy, ha], hr⟩

/-! ### Decimal representation facts -/

theorem toDigitsCore_append (b : Nat) :
    ∀ (f n : Nat) (l : List Char),
      Nat.toDigitsCore b f n l = Nat.toDigitsCore b f n [] ++ l := by
  intro f
  induction f with
  | zero => intro n l; rfl
  | succ f ih =>
    intro n l
    simp only [Nat.toDigitsCore]
    by_cases h : n / b = 0
    · simp [h]
    · simp only [if_neg h]
      rw [ih (n / b) (Nat.digitChar (n % b) :: l), ih (n / b) [Nat.digitChar (n % b)]]
      simp

theorem toDigitsCore_fuel (b : Nat) (hb : 2 ≤ b) :
    ∀ (n : Nat) (f : Nat) (l : List Char), n < f →
      Nat.toDigitsCore b f n l = Nat.toDigitsCore b (n + 1) n l := by
  intro n
  induction n using Nat.strong_induction_on with
  | _ n ih =>
    intro f l hf
    match f, hf with
    | f + 1, hf =>
      simp only [Nat.toDigitsCore]
      by_cases h : n / b = 0
      · simp [h]
      · simp only [if_neg h]
        have hlt : n / b < n := Nat.div_lt_self (Nat.pos_of_ne_zero
          (fun hn => h (by rw [hn]; exact Nat.zero_div b))) (by omega)
        rw [ih (n / b) hlt f _ (by omega), ih (n / b) hlt n _ (by omega)]

theorem repr_step (n : Nat) (h : 10 ≤ n) :
    (Nat.repr n).data = (Nat.repr (n / 10)).data ++ [Nat.digitChar (n % 10)] := by
  show (Nat.toDigits 10 n).asString.data = (Nat.toDigits 10 (n / 10)).asString.data ++ _
  simp only [Nat.toDigits, List.asString]
  have hne : ¬ n / 10 = 0 := by
    have := Nat.div_pos h (by omega)
    omega
  conv =>
    lhs
    rw [show Nat.toDigitsCore 10 (n + 1) n [] =
      Nat.toDigitsCore 10 n (n / 10) [Nat.digitChar (n % 10)] by
        simp only [Nat.toDigitsCore]
        rw [if_neg hne]]
  rw [toDigitsCore_append 10 n (n / 10) [Nat.digitChar (n % 10)],
    toDigitsCore_fuel 10 (by omega) (n / 10) n []
      (Nat.lt_of_lt_of_le (Nat.div_lt_self (by omega) (by omega)) (by omega))]

theorem repr_small (n : Nat) (h : n < 10) :
    (Nat.repr n).data = [Nat.digitChar n] := by
  show (Nat.toDigits 10 n).asString.data = _
  simp only [Nat.toDigits, List.asString, Nat.toDigitsCore]
  rw [Nat.mod_eq_of_lt h, if_pos (Nat.div_eq_of_lt h)]

theorem repr_digits (n : Nat) : ∀ c ∈ (Nat.repr n).data, c.isDigit = true := by
  induction n using Nat.strong_induction_on with
  | _ n ih =>
    intro c hc
    by_cases h : n < 10
    · rw [repr_small n h] at hc
      rcases List.mem_singleton.mp hc with rfl
      have hd : ∀ m, m < 10 → (Nat.digitChar m).isDigit = true := by decide
      exact hd n h
    · rw [repr_step n (by omega)] at hc
      rcases List.mem_append.mp hc with hc | hc
      · exact ih (n / 10) (Nat.div_lt_self (by omega) (by omega)) c hc
      · rcases List.mem_singleton.mp hc with rfl
        have hd : ∀ m, m < 10 → (Nat.digitChar m).isDigit = true := by decide
        exact hd (n % 10) (Nat.mod_lt n (by omega))

theorem repr_inj : ∀ (n m : Nat), Nat.repr n = Nat.repr m → n = m := by
  intro n
  induction n using Nat.strong_induction_on with
  | _ n ih =>
    intro m heq
    have hdata := congrArg String.data heq
    have hdinj : ∀ a < 10, ∀ b < 10, Nat.digitChar a = Nat.digitChar b → a = b := by decide
    by_cases hn : n < 10
    · by_cases hm : m < 10
      · rw [repr_small n hn, repr_small m hm] at hdata
        exact hdinj n hn m hm (List.singleton_inj.mp hdata)
      · rw [repr_small n hn, repr_step m (by omega)] at hdata
        have hlen := congrArg List.length hdata
        have hmlen : (Nat.repr (m / 10)).data.length ≥ 1 := by
          by_cases hsm : m / 10 < 10
          · rw [repr_small _ hsm]; simp
          · rw [repr_step _ (by omega)]; simp
        simp only [List.length_singleton, List.length_append] at hlen
        omega
    · by_cases hm : m < 10
      · rw [repr_step n (by omega), repr_small m hm] at hdata
        have hlen := congrArg List.length hdata
        have hnlen : (Nat.repr (n / 10)).data.length ≥ 1 := by
          by_cases hsn : n / 10 < 10
          · rw [repr_small _ hsn]; simp
          · rw [repr_step _ (by omega)]; simp
        simp only [List.length_singleton, List.length_append] at hlen
        omega
      · rw [repr_step n (by omega), repr_step m (by omega)] at hdata
        have hrev := congrArg List.reverse hdata
        simp only [List.reverse_append, List.reverse_singleton, List.singleton_append,
          List.cons.injEq] at hrev
        have h1 : n % 10 = m % 10 :=
          hdinj _ (Nat.mod_lt n (by omega)) _ (Nat.mod_lt m (by omega)) hrev.1
        have h2 : Nat.repr (n / 10) = Nat.repr (m / 10) :=
          String.ext (List.reverse_injective hrev.2)
        have h3 : n / 10 = m / 10 :=
          ih (n / 10) (Nat.div_lt_self (by omega) (by omega)) (m / 10) h2
        omega

/-! ### Clean documents and the structured flattening -/

/-- A mapping key that flattening can address unambiguously: nonempty and
free of the separator characters. -/
def cleanKey (k : String) : Bool :=
  !k.data.isEmpty && noSepB k.data

/-- Pairwise distinctness of a key list. -/
def distinctKeys : List String → Bool
  | [] => true
  | k :: t => !t.contains k && distinctKeys t

mutual

/-- Documents with no empty containers, separator-free nonempty mapping
keys, and pairwise-distinct keys in each mapping. -/
def wfDoc : Value → Bool
  | .scalar _ => true
  | .list xs => !xs.isEmpty && wfDocList xs
  | .dict kvs => !kvs.isEmpty && distinctKeys (kvs.map Prod.fst) && wfDocFields kvs

/-- `wfDoc` over the elements of a sequence. -/
def wfDocList : List Value → Bool
  | [] => true
  | v :: t => wfDoc v && wfDocList t

/-- `wfDoc` over the fields of a mapping, with clean keys. -/
def wfDocFields : List (String × Value) → Bool
  | [] => true
  | (k, v) :: t => cleanKey k && wfDoc v && wfDocFields t

end

mutual

/-- Documents with no empty mappings and no empty sequences (the claim's
precondition, with no constraint on key strings). -/
def noEmpty : Value → Bool
  | .scalar _ => true
  | .list xs => !xs.isEmpty && noEmptyList xs
  | .dict kvs => !kvs.isEmpty && noEmptyFields kvs

/-- `noEmpty` over the elements of a sequence. -/
def noEmptyList : List Value → Bool
  | [] => true
  | v :: t => noEmpty v && noEmptyList t

/-- `noEmpty` over the fields of a mapping. -/
def noEmptyFields : List (String × Value) → Bool
  | [] => true
  | (_, v) :: t => noEmpty v && noEmptyFields t

end

mutual

/-- The structured flattening: each leaf with its address *suffix*
relative to the document root, written with a leading separator
(`.key` / `[index]`). -/
def sfx : Value → List (List Char × Scalar)
  | .scalar s => [([], s)]
  | .dict kvs => sfxFields kvs
  | .list xs => sfxElems xs 0

/-- Suffixes contributed by a mapping's fields. -/
def sfxFields : List (String × Value) → List (List Char × Scalar)
  | [] => []
  | (k, v) :: t =>
    (sfx v).map (fun p => ('.' :: k.data ++ p.1, p.2)) ++ sfxFields t

/-- Suffixes contributed by a sequence's elements from index `i` on. -/
def sfxElems : List Value → Nat → List (List Char × Scalar)
  | [], _ => []
  | v :: t, i =>
    (sfx v).map (fun p => ('[' :: (Nat.repr i).data ++ ']' :: p.1, p.2)) ++ sfxElems t (i + 1)

end

/-- Characterization of field suffixes. -/
theorem mem_sfxFields (kvs : List (String × Value)) (p1 : List Char) (p2 : Scalar) :
    (p1, p2) ∈ sfxFields kvs ↔
      ∃ k v s, (k, v) ∈ kvs ∧ (s, p2) ∈ sfx v ∧ p1 = '.' :: k.data ++ s := by
  induction kvs with
  | nil => simp [sfxFields]
  | cons q t ih =>
    obtain ⟨k0, v0⟩ := q
    simp only [sfxFields, List.mem_append, List.mem_map, ih]
    constructor
    · rintro (⟨⟨s, sc⟩, hp, heq⟩ | ⟨k, v, s, hm, hs, hp⟩)
      · obtain ⟨h1, h2⟩ := Prod.mk.injEq .. ▸ heq
        subst h2
        exact ⟨k0, v0, s, List.mem_cons_self _ _, hp, h1.symm⟩
      · exact ⟨k, v, s, List.mem_cons_of_mem _ hm, hs, hp⟩
    · rintro ⟨k, v, s, hm, hs, hp⟩
      rcases List.mem_cons.mp hm with hh | hh
      · obtain ⟨h1, h2⟩ := Prod.mk.injEq .. ▸ hh
        subst h1; subst h2
        exact Or.inl ⟨(s, p2), hs, by rw [hp]⟩
      · exact Or.inr ⟨k, v, s, hh, hs, hp⟩

/-- Characterization of element suffixes. -/
theorem mem_sfxElems (xs : List Value) : ∀ (i : Nat) (p1 : List Char) (p2 : Scalar),
    (p1, p2) ∈ sfxElems xs i ↔
      ∃ j v s, i ≤ j ∧ xs.get? (j - i) = some v ∧ (s, p2) ∈ sfx v ∧
        p1 = '[' :: (Nat.repr j).data ++ ']' :: s := by
  induction xs with
  | nil => intro i p1 p2; simp [sfxElems]
  | cons v0 t ih =>
    intro i p1 p2
    simp only [sfxElems, List.mem_append, List.mem_map, ih (i + 1)]
    constructor
    · rintro (⟨⟨s, sc⟩, hp, heq⟩ | ⟨j, v, s, hij, hget, hs, hp⟩)
      · obtain ⟨h1, h2⟩ := Prod.mk.injEq .. ▸ heq
        subst h2
        exact ⟨i, v0, s, Nat.le_refl i, by simp, hp, h1.symm⟩
      · refine ⟨j, v, s, by omega, ?_, hs, hp⟩
        have hji : j - i = (j - (i + 1)) + 1 := by omega
        rw [hji, List.get?_cons_succ]
        exact hget
    · rintro ⟨j, v, s, hij, hget, hs, hp⟩
      by_cases hji : j = i
      · subst hji
        simp only [Nat.sub_self, List.get?_cons_zero, Option.some.injEq] at hget
        subst hget
        exact Or.inl ⟨(s, p2), hs, by rw [hp]⟩
      · right
        refine ⟨j, v, s, by omega, ?_, hs, hp⟩
        have hji2 : j - i = (j - (i + 1)) + 1 := by omega
        rw [hji2, List.get?_cons_succ] at hget
        exact hget

/-- Every suffix is empty or separator-headed. -/
theorem sfx_shape (d : Value) (p1 : List Char) (p2 : Scalar)
    (hp : (p1, p2) ∈ sfx d) : shapedB p1 = true := by
  cases d with
  | scalar s =>
    simp only [sfx, List.mem_singleton, Prod.mk.injEq] at hp
    rw [hp.1]
    rfl
  | dict kvs =>
    obtain ⟨k, v, s, _, _, hp1⟩ := (mem_sfxFields kvs p1 p2).mp hp
    rw [hp1]
    rfl
  | list xs =>
    obtain ⟨j, v, s, _, _, _, hp1⟩ := (mem_sfxElems xs 0 p1 p2).mp hp
    rw [hp1]
    rfl

theorem not_mem_repr (n : Nat) (c : Char) (hc : c.isDigit = false) :
    ¬ c ∈ (Nat.repr n).data := fun h => by
  have := repr_digits n c h
  rw [hc] at this
  cases this

/-- Distinct clean keys produce distinct field addresses. -/
theorem dict_block_ne (k k' : String) (s s' : List Char)
    (hk : cleanKey k = true) (hk' : cleanKey k' = true)
    (hs : shapedB s = true) (hs' : shapedB s' = true) (hne : ¬ k = k') :
    ¬ ('.' :: k.data ++ s : List Char) = '.' :: k'.data ++ s' := by
  intro h
  simp only [List.cons_append, List.cons.injEq] at h
  have hksep : noSepB k.data = true := by
    simp only [cleanKey, Bool.and_eq_true] at hk
    exact hk.2
  have hksep' : noSepB k'.data = true := by
    simp only [cleanKey, Bool.and_eq_true] at hk'
    exact hk'.2
  obtain ⟨hkk, _⟩ := clean_shaped_split k.data k'.data s s' hksep hksep' hs hs' h.2
  exact hne (String.ext hkk)

/-- Distinct indices produce distinct element addresses. -/
theorem list_block_ne (i j : Nat) (s s' : List Char) (hne : ¬ i = j) :
    ¬ ('[' :: (Nat.repr i).data ++ ']' :: s : List Char) =
      '[' :: (Nat.repr j).data ++ ']' :: s' := by
  intro h
  simp only [List.cons_append, List.cons.injEq] at h
  obtain ⟨hri, _⟩ := append_cons_inj ']' (Nat.repr i).data (Nat.repr j).data s s'
    (not_mem_repr i ']' (by decide)) (not_mem_repr j ']' (by decide)) h.2
  exact hne (repr_inj i j (String.ext hri))

/-- Under well-formedness the structured flattening is nonempty. -/
theorem sfx_ne_nil_aux : ∀ (n : Nat) (d : Value), sizeOf d ≤ n → wfDoc d = true →
    ¬ sfx d = [] := by
  intro n
  induction n with
  | zero =>
    intro d hsize _
    cases d <;> simp at hsize <;> omega
  | succ n ih =>
    intro d hsize hwf
    cases d with
    | scalar s => simp [sfx]
    | dict kvs =>
      cases kvs with
      | nil => simp [wfDoc] at hwf
      | cons q t =>
        obtain ⟨k, v⟩ := q
        simp only [wfDoc, Bool.and_eq_true] at hwf
        have hwfv : wfDoc v = true := by
          have := hwf.2
          simp only [wfDocFields, Bool.and_eq_true] at this
          exact this.1.2
        have hsv : sizeOf v ≤ n := by
          simp at hsize
          omega
        have hne := ih v hsv hwfv
        simp only [sfx, sfxFields]
        intro hcontra
        rcases List.append_eq_nil.mp hcontra with ⟨h1, _⟩
        exact hne (List.map_eq_nil.mp h1)
    | list xs =>
      cases xs with
      | nil => simp [wfDoc] at hwf
      | cons v t =>
        simp only [wfDoc, Bool.and_eq_true] at hwf
        have hwfv : wfDoc v = true := by
          have := hwf.2
          simp only [wfDocList, Bool.and_eq_true] at this
          exact this.1
        have hsv : sizeOf v ≤ n := by
          simp at hsize
          omega
        have hne := ih v hsv hwfv
        simp only [sfx, sfxElems]
        intro hcontra
        rcases List.append_eq_nil.mp hcontra with ⟨h1, _⟩
        exact hne (List.map_eq_nil.mp h1)

/-- Under well-formedness the structured flattening is nonempty. -/
theorem sfx_ne_nil (d : Value) (hwf : wfDoc d = true) : ¬ sfx d = [] :=
  sfx_ne_nil_aux (sizeOf d) d (Nat.le_refl _) hwf

/-- Field well-formedness, pointwise. -/
theorem wfDocFields_mem (kvs : List (String × Value)) (h : wfDocFields kvs = true) :
    ∀ k v, (k, v) ∈ kvs → cleanKey k = true ∧ wfDoc v = true := by
  induction kvs with
  | nil => intro k v hm; cases hm
  | cons q t ih =>
    obtain ⟨k0, v0⟩ := q
    simp only [wfDocFields, Bool.and_eq_true] at h
    intro k v hm
    rcases List.mem_cons.mp hm with hh | hh
    · obtain ⟨h1, h2⟩ := Prod.mk.injEq .. ▸ hh
      subst h1; subst h2
      exact ⟨h.1.1, h.1.2⟩
    · exact ih h.2 k v hh

/-- Element well-formedness, pointwise. -/
theorem wfDocList_mem (xs : List Value) (h : wfDocList xs = true) :
    ∀ v, v ∈ xs → wfDoc v = true := by
  induction xs with
  | nil => intro v hm; cases hm
  | cons v0 t ih =>
    simp only [wfDocList, Bool.and_eq_true] at h
    intro v hm
    rcases List.mem_cons.mp hm with hh | hh
    · subst hh; exact h.1
    · exact ih h.2 v hh

theorem distinctKeys_head (k : String) (t : List String)
    (h : distinctKeys (k :: t) = true) : ¬ k ∈ t ∧ distinctKeys t = true := by
  simp only [distinctKeys, Bool.and_eq_true, Bool.not_eq_true'] at h
  refine ⟨?_, h.2⟩
  intro hm
  have helem : List.elem k t = true := List.elem_iff.mpr hm
  rw [show t.contains k = List.elem k t from rfl, helem] at h
  exact Bool.noConfusion h.1

/-- Keys of one mapping's suffix blocks are pairwise distinct. -/
theorem sfxFields_nodup (kvs : List (String × Value))
    (hwf : wfDocFields kvs = true)
    (hdk : distinctKeys (kvs.map Prod.fst) = true)
    (hIH : ∀ k v, (k, v) ∈ kvs → ((sfx v).map Prod.fst).Nodup) :
    ((sfxFields kvs).map Prod.fst).Nodup := by
  induction kvs with
  | nil => simp [sfxFields]
  | cons q t ih =>
    obtain ⟨k0, v0⟩ := q
    simp only [wfDocFields, Bool.and_eq_true] at hwf
    simp only [List.map_cons] at hdk
    obtain ⟨hknot, hdkt⟩ := distinctKeys_head _ _ hdk
    simp only [sfxFields, List.map_append, List.map_map]
    rw [List.nodup_append]
    refine ⟨?_, ?_, ?_⟩
    · have hbase := hIH k0 v0 (List.mem_cons_self _ _)
      have : ((sfx v0).map (Prod.fst ∘ (fun p : List Char × Scalar =>
          ('.' :: k0.data ++ p.1, p.2)))) =
          ((sfx v0).map Prod.fst).map (fun s => '.' :: k0.data ++ s) := by
        rw [List.map_map]
        rfl
      rw [show (Prod.fst ∘ (fun p : List Char × Scalar =>
          ('.' :: k0.data ++ p.1, p.2))) = (fun p : List Char × Scalar =>
          '.' :: k0.data ++ p.1) from rfl]
      have : ((sfx v0).map (fun p : List Char × Scalar => '.' :: k0.data ++ p.1)) =
          ((sfx v0).map Prod.fst).map (fun s => ('.' :: k0.data) ++ s) := by
        rw [List.map_map]
        rfl
      rw [this]
      exact hbase.map (fun a b h => List.append_cancel_left h)
    · exact ih hwf.2 hdkt (fun k v hm => hIH k v (List.mem_cons_of_mem _ hm))
    · intro a ha hb
      simp only [List.mem_map, Function.comp] at ha
      obtain ⟨⟨s1, sc1⟩, hmem1, ha1⟩ := ha
      obtain ⟨⟨p1, p2⟩, hmem2, hb1⟩ := List.mem_map.mp hb
      have hab : ('.' :: k0.data ++ s1 : List Char) = p1 := by
        rw [← ha1] at hb1
        exact hb1.symm
      obtain ⟨k', v', s', hm', hs', hp'⟩ := (mem_sfxFields t p1 p2).mp hmem2
      rw [hp'] at hab
      have hkne : ¬ k0 = k' := by
        intro hc
        subst hc
        exact hknot (List.mem_map.mpr ⟨(k0, v'), hm', rfl⟩)
      exact dict_block_ne k0 k' s1 s' hwf.1.1
        (wfDocFields_mem t hwf.2 k' v' hm').1
        (sfx_shape v0 s1 sc1 hmem1) (sfx_shape v' s' p2 hs') hkne hab

/-- Keys of one sequence's suffix blocks are pairwise distinct. -/
theorem sfxElems_nodup (xs : List Value) : ∀ (i : Nat),
    wfDocList xs = true →
    (∀ v, v ∈ xs → ((sfx v).map Prod.fst).Nodup) →
    ((sfxElems xs i).map Prod.fst).Nodup := by
  induction xs with
  | nil => intro i _ _; simp [sfxElems]
  | cons v0 t ih =>
    intro i hwf hIH
    simp only [wfDocList, Bool.and_eq_true] at hwf
    simp only [sfxElems, List.map_append, List.map_map]
    rw [List.nodup_append]
    refine ⟨?_, ?_, ?_⟩
    · have hbase := hIH v0 (List.mem_cons_self _ _)
      have hmm : ((sfx v0).map (Prod.fst ∘ (fun p : List Char × Scalar =>
          ('[' :: (Nat.repr i).data ++ ']' :: p.1, p.2)))) =
          ((sfx v0).map Prod.fst).map (fun s => '[' :: (Nat.repr i).data ++ ']' :: s) := by
        rw [List.map_map]
        rfl
      rw [hmm]
      refine hbase.map (fun a b h => ?_)
      simp only [List.cons.injEq, true_and] at h
      have h2 := List.append_cancel_left h
      simp only [List.cons.injEq, true_and] at h2
      exact h2
    · exact ih (i + 1) hwf.2 (fun v hm => hIH v (List.mem_cons_of_mem _ hm))
    · intro a ha hb
      simp only [List.mem_map, Function.comp] at ha
      obtain ⟨⟨s1, sc1⟩, hmem1, ha1⟩ := ha
      obtain ⟨⟨p1, p2⟩, hmem2, hb1⟩ := List.mem_map.mp hb
      obtain ⟨j, v', s', hij, hget, hs', hp'⟩ := (mem_sfxElems t (i + 1) p1 p2).mp hmem2
      have hab : ('[' :: (Nat.repr i).data ++ ']' :: s1 : List Char) =
          '[' :: (Nat.repr j).data ++ ']' :: s' := by
        rw [ha1, ← hb1]
        exact hp'
      exact list_block_ne i j s1 s' (by omega) hab

/-- Under well-formedness every leaf gets a distinct suffix. -/
theorem sfx_nodup_aux : ∀ (n : Nat) (d : Value), sizeOf d ≤ n → wfDoc d = true →
    ((sfx d).map Prod.fst).Nodup := by
  intro n
  induction n with
  | zero =>
    intro d hsize _
    cases d <;> simp at hsize <;> omega
  | succ n ih =>
    intro d hsize hwf
    cases d with
    | scalar s => simp [sfx]
    | dict kvs =>
      simp only [wfDoc, Bool.and_eq_true] at hwf
      apply sfxFields_nodup kvs hwf.2 hwf.1.2
      intro k v hm
      have hs : sizeOf v ≤ n := by
        have := List.sizeOf_lt_of_mem hm
        simp at this hsize ⊢
        omega
      exact ih v hs (wfDocFields_mem kvs hwf.2 k v hm).2
    | list xs =>
      simp only [wfDoc, Bool.and_eq_true] at hwf
      apply sfxElems_nodup xs 0 hwf.2
      intro v hm
      have hs : sizeOf v ≤ n := by
        have := List.sizeOf_lt_of_mem hm
        simp at this hsize ⊢
        omega
      exact ih v hs (wfDocList_mem xs hwf.2 v hm)

/-- Under well-formedness every leaf gets a distinct suffix. -/
theorem sfx_nodup (d : Value) (hwf : wfDoc d = true) : ((sfx d).map Prod.fst).Nodup :=
  sfx_nodup_aux (sizeOf d) d (Nat.le_refl _) hwf

/-! ### Relating `flatten` to the structured flattening -/

/-- Remove one leading dot, the root-level address adjustment. -/
def dropLeadingDot (s : List Char) : List Char :=
  match s with
  | [] => []
  | c :: t => if c = '.' then t else c :: t

/-- The address a suffix denotes under a prefix: at the root the leading
dot of a field suffix disappears (`addrKey "" k = k`); under a nonempty
prefix the suffix is appended verbatim. -/
def renderAddr (pre : String) (s : List Char) : String :=
  if pre.data = [] then String.mk (dropLeadingDot s) else String.mk (pre.data ++ s)

theorem dropLeadingDot_dot (t : List Char) : dropLeadingDot ('.' :: t) = t := by
  simp [dropLeadingDot]

theorem dropLeadingDot_bracket (t : List Char) :
    dropLeadingDot ('[' :: t) = '[' :: t := by
  simp [dropLeadingDot]

theorem renderAddr_of_ne (pre : String) (h : ¬ pre.data = []) (s : List Char) :
    renderAddr pre s = String.mk (pre.data ++ s) := by
  unfold renderAddr
  rw [if_neg h]

/-- Rendering a field suffix under a prefix splits off the key cleanly. -/
theorem renderAddr_dict_eq_iff (pre : String) (k k' : String) (s s' : List Char)
    (hk : cleanKey k = true) (hk' : cleanKey k' = true)
    (hs : shapedB s = true) (hs' : shapedB s' = true) :
    renderAddr pre ('.' :: k.data ++ s) = renderAddr pre ('.' :: k'.data ++ s') ↔
      (k = k' ∧ s = s') := by
  have hksep : noSepB k.data = true := by
    simp only [cleanKey, Bool.and_eq_true] at hk
    exact hk.2
  have hksep' : noSepB k'.data = true := by
    simp only [cleanKey, Bool.and_eq_true] at hk'
    exact hk'.2
  constructor
  · intro h
    unfold renderAddr at h
    by_cases hpre : pre.data = []
    · rw [if_pos hpre, if_pos hpre] at h
      rw [List.cons_append, List.cons_append, dropLeadingDot_dot, dropLeadingDot_dot] at h
      have hd := congrArg String.data h
      simp only at hd
      obtain ⟨h1, h2⟩ := clean_shaped_split k.data k'.data s s' hksep hksep' hs hs' hd
      exact ⟨String.ext h1, h2⟩
    · rw [if_neg hpre, if_neg hpre] at h
      have hd := congrArg String.data h
      simp only at hd
      have hd2 := List.append_cancel_left hd
      simp only [List.cons_append, List.cons.injEq, true_and] at hd2
      obtain ⟨h1, h2⟩ := clean_shaped_split k.data k'.data s s' hksep hksep' hs hs' hd2
      exact ⟨String.ext h1, h2⟩
  · rintro ⟨rfl, rfl⟩
    rfl

/-- Rendering an element suffix under a prefix splits off the index
cleanly. -/
theorem renderAddr_list_eq_iff (pre : String) (i j : Nat) (s s' : List Char) :
    renderAddr pre ('[' :: (Nat.repr i).data ++ ']' :: s) =
      renderAddr pre ('[' :: (Nat.repr j).data ++ ']' :: s') ↔ (i = j ∧ s = s') := by
  constructor
  · intro h
    unfold renderAddr at h
    have hd : ('[' :: (Nat.repr i).data ++ ']' :: s : List Char) =
        '[' :: (Nat.repr j).data ++ ']' :: s' := by
      by_cases hpre : pre.data = []
      · rw [if_pos hpre, if_pos hpre, List.cons_append, List.cons_append,
          dropLeadingDot_bracket, dropLeadingDot_bracket] at h
        have hd := congrArg String.data h
        simpa using hd
      · rw [if_neg hpre, if_neg hpre] at h
        exact List.append_cancel_left (congrArg String.data h)
    simp only [List.cons_append, List.cons.injEq, true_and] at hd
    obtain ⟨h1, h2⟩ := append_cons_inj ']' (Nat.repr i).data (Nat.repr j).data s s'
      (not_mem_repr i ']' (by decide)) (not_mem_repr j ']' (by decide)) hd
    exact ⟨repr_inj i j (String.ext h1), h2⟩
  · rintro ⟨rfl, rfl⟩
    rfl

/-- Updating with fresh, pairwise-distinct keys is plain concatenation. -/
theorem dictUpdate_append (extra : List (String × Scalar)) :
    ∀ (res : List (String × Scalar)),
      ((extra.map Prod.fst).Nodup) →
      (∀ k, k ∈ extra.map Prod.fst → ¬ k ∈ res.map Prod.fst) →
      dictUpdate res extra = res ++ extra := by
  induction extra with
  | nil => intro res _ _; simp [dictUpdate]
  | cons q t ih =>
    obtain ⟨k, v⟩ := q
    intro res hnd hdisj
    simp only [List.map_cons, List.nodup_cons] at hnd
    have hkres : ¬ k ∈ res.map Prod.fst := hdisj k (by simp)
    have hany : res.any (fun p => p.1 = k) = false := by
      rcases hres : res.any (fun p => p.1 = k) with _ | _
      · rfl
      · obtain ⟨p, hp, hpk⟩ := List.any_eq_true.mp hres
        exact absurd (List.mem_map.mpr ⟨p, hp, decide_eq_true_eq.mp hpk⟩) hkres
    have hstep : dictUpdate res ((k, v) :: t) = dictUpdate (res ++ [(k, v)]) t := by
      simp only [dictUpdate, List.foldl_cons, updOne, hany]
      rfl
    rw [hstep, ih (res ++ [(k, v)]) hnd.2 ?_, List.append_assoc]
    · rfl
    · intro k' hk' hmem
      rw [List.map_append, List.mem_append] at hmem
      rcases hmem with hmem | hmem
      · exact hdisj k' (List.mem_cons_of_mem _ hk') hmem
      · simp only [List.map_cons, List.map_nil, List.mem_singleton] at hmem
        subst hmem
        exact hnd.1 hk'

theorem addrKey_data (pre k : String) :
    (addrKey pre k).data = (if pre.data = [] then k.data else pre.data ++ '.' :: k.data) := by
  unfold addrKey
  by_cases hpre : pre = ""
  · subst hpre
    rw [if_pos rfl, if_pos rfl]
  · have hd : ¬ pre.data = [] := by
      intro hc
      exact hpre (String.ext hc)
    rw [if_neg hpre, if_neg hd, String.data_append, String.data_append,
      show (".".data : List Char) = ['.'] from rfl, List.append_assoc]
    rfl

theorem addrIdx_data (pre : String) (i : Nat) :
    (addrIdx pre i).data = pre.data ++ '[' :: (Nat.repr i).data ++ [']'] := by
  unfold addrIdx
  rw [String.data_append, String.data_append, String.data_append,
    show ("[".data : List Char) = ['['] from rfl,
    show ("]".data : List Char) = [']'] from rfl,
    show (toString i).data = (Nat.repr i).data from rfl,
    List.append_assoc, List.append_assoc]
  simp

theorem addrKey_data_ne (pre k : String) (hk : cleanKey k = true) :
    ¬ (addrKey pre k).data = [] := by
  rw [addrKey_data]
  simp only [cleanKey, Bool.and_eq_true, Bool.not_eq_true'] at hk
  by_cases hpre : pre.data = []
  · rw [if_pos hpre]
    rw [List.isEmpty_eq_false_iff_exists_mem] at hk
    obtain ⟨c, hc⟩ := hk.1
    intro hcon
    rw [hcon] at hc
    cases hc
  · rw [if_neg hpre]
    intro hcon
    rcases List.append_eq_nil.mp hcon with ⟨h1, _⟩
    exact hpre h1

theorem addrIdx_data_ne (pre : String) (i : Nat) : ¬ (addrIdx pre i).data = [] := by
  rw [addrIdx_data]
  intro hcon
  rcases List.append_eq_nil.mp hcon with ⟨_, h2⟩
  cases h2

/-- Rendering a field suffix factors through the child prefix. -/
theorem renderAddr_key_align (pre k : String) (s : List Char) :
    String.mk ((addrKey pre k).data ++ s) = renderAddr pre ('.' :: k.data ++ s) := by
  rw [addrKey_data]
  unfold renderAddr
  by_cases hpre : pre.data = []
  · rw [if_pos hpre, if_pos hpre, List.cons_append, dropLeadingDot_dot]
  · rw [if_neg hpre, if_neg hpre]
    simp

/-- Rendering an element suffix factors through the child prefix. -/
theorem renderAddr_idx_align (pre : String) (i : Nat) (s : List Char) :
    String.mk ((addrIdx pre i).data ++ s) = renderAddr pre ('[' :: (Nat.repr i).data ++ ']' :: s) := by
  rw [addrIdx_data]
  unfold renderAddr
  by_cases hpre : pre.data = []
  · rw [if_pos hpre, List.cons_append, dropLeadingDot_bracket]
    simp [hpre]
  · rw [if_neg hpre]
    simp

/-- The field loop of `flatten`, under cleanliness, appends the rendered
suffix blocks to the accumulator. -/
theorem flattenFields_eq (kvs : List (String × Value)) (pre : String) :
    ∀ res : List (String × Scalar),
      wfDocFields kvs = true →
      distinctKeys (kvs.map Prod.fst) = true →
      (∀ k v, (k, v) ∈ kvs → ∀ q : String, ¬ q.data = [] →
        flatten v q = (sfx v).map (fun p => (String.mk (q.data ++ p.1), p.2))) →
      (∀ s sc, (s, sc) ∈ sfxFields kvs → ¬ renderAddr pre s ∈ res.map Prod.fst) →
      flattenFields kvs pre res =
        res ++ (sfxFields kvs).map (fun p => (renderAddr pre p.1, p.2)) := by
  induction kvs with
  | nil => intro res _ _ _ _; simp [flattenFields, sfxFields]
  | cons q t ih =>
    obtain ⟨k, v⟩ := q
    intro res hwf hdk hbr hfresh
    simp only [wfDocFields, Bool.and_eq_true] at hwf
    obtain ⟨⟨hck, hwv⟩, hwt⟩ := hwf
    simp only [List.map_cons] at hdk
    obtain ⟨hknot, hdkt⟩ := distinctKeys_head _ _ hdk
    have hqd := addrKey_data_ne pre k hck
    have hblock : flatten v (addrKey pre k) =
        (sfx v).map (fun p => (renderAddr pre ('.' :: k.data ++ p.1), p.2)) := by
      rw [hbr k v (List.mem_cons_self _ _) (addrKey pre k) hqd]
      apply List.map_congr_left
      intro p _
      rw [renderAddr_key_align]
    have hshaped : ∀ s : List Char, s ∈ (sfx v).map Prod.fst → shapedB s = true := by
      intro s hs
      obtain ⟨⟨s0, sc0⟩, hmem, heq⟩ := List.mem_map.mp hs
      subst heq
      exact sfx_shape v s0 sc0 hmem
    have hupd : dictUpdate res (flatten v (addrKey pre k)) =
        res ++ flatten v (addrKey pre k) := by
      apply dictUpdate_append
      · rw [hblock, List.map_map,
          show (Prod.fst ∘ fun p : List Char × Scalar =>
            (renderAddr pre ('.' :: k.data ++ p.1), p.2)) =
            ((fun s => renderAddr pre ('.' :: k.data ++ s)) ∘ Prod.fst) from rfl,
          ← List.map_map]
        refine List.Nodup.map_on ?_ (sfx_nodup v hwv)
        intro s1 hs1 s2 hs2 heq
        exact ((renderAddr_dict_eq_iff pre k k s1 s2 hck hck
          (hshaped s1 hs1) (hshaped s2 hs2)).mp heq).2
      · intro key hkey
        rw [hblock, List.map_map] at hkey
        obtain ⟨⟨s0, sc0⟩, hmem, heq⟩ := List.mem_map.mp hkey
        subst heq
        exact hfresh ('.' :: k.data ++ s0) sc0
          ((mem_sfxFields ((k, v) :: t) _ sc0).mpr
            ⟨k, v, s0, List.mem_cons_self _ _, hmem, rfl⟩)
    show flattenFields t pre (dictUpdate res (flatten v (addrKey pre k))) = _
    rw [hupd, hblock, ih (res ++ (sfx v).map
        (fun p => (renderAddr pre ('.' :: k.data ++ p.1), p.2))) hwt hdkt
      (fun k' v' hm => hbr k' v' (List.mem_cons_of_mem _ hm)) ?_]
    · simp only [sfxFields, List.map_append, List.map_map, List.append_assoc]
      rfl
    · intro s sc hmem hcontra
      rw [List.map_append, List.mem_append] at hcontra
      rcases hcontra with hcontra | hcontra
      · obtain ⟨k', v', s', hm', hs', hp'⟩ := (mem_sfxFields t s sc).mp hmem
        exact hfresh s sc ((mem_sfxFields ((k, v) :: t) s sc).mpr
          ⟨k', v', s', List.mem_cons_of_mem _ hm', hs', hp'⟩) hcontra
      · rw [List.map_map] at hcontra
        obtain ⟨⟨s0, sc0⟩, hmem0, heq0⟩ := List.mem_map.mp hcontra
        obtain ⟨k', v', s', hm', hs', hp'⟩ := (mem_sfxFields t s sc).mp hmem
        have hkne : ¬ k = k' := by
          intro hc
          subst hc
          exact hknot (List.mem_map.mpr ⟨(k, v'), hm', rfl⟩)
        have := heq0
        simp only at this
        rw [hp'] at this
        have hiff := (renderAddr_dict_eq_iff pre k k' s0 s' hck
          (wfDocFields_mem t hwt k' v' hm').1
          (sfx_shape v s0 sc0 hmem0) (sfx_shape v' s' sc hs')).mp this
        exact hkne hiff.1

/-- The element loop of `flatten` appends the rendered suffix blocks to
the accumulator. -/
theorem flattenElems_eq (xs : List Value) (pre : String) :
    ∀ (i : Nat) (res : List (String × Scalar)),
      wfDocList xs = true →
      (∀ v, v ∈ xs → ∀ q : String, ¬ q.data = [] →
        flatten v q = (sfx v).map (fun p => (String.mk (q.data ++ p.1), p.2))) →
      (∀ s sc, (s, sc) ∈ sfxElems xs i → ¬ renderAddr pre s ∈ res.map Prod.fst) →
      flattenElems xs i pre res =
        res ++ (sfxElems xs i).map (fun p => (renderAddr pre p.1, p.2)) := by
  induction xs with
  | nil => intro i res _ _ _; simp [flattenElems, sfxElems]
  | cons v t ih =>
    intro i res hwf hbr hfresh
    simp only [wfDocList, Bool.and_eq_true] at hwf
    obtain ⟨hwv, hwt⟩ := hwf
    have hqd := addrIdx_data_ne pre i
    have hblock : flatten v (addrIdx pre i) =
        (sfx v).map (fun p => (renderAddr pre ('[' :: (Nat.repr i).data ++ ']' :: p.1), p.2)) := by
      rw [hbr v (List.mem_cons_self _ _) (addrIdx pre i) hqd]
      apply List.map_congr_left
      intro p _
      rw [renderAddr_idx_align]
    have hshaped : ∀ v' : Value, ∀ s : List Char, s ∈ (sfx v').map Prod.fst →
        shapedB s = true := by
      intro v' s hs
      obtain ⟨⟨s0, sc0⟩, hmem, heq⟩ := List.mem_map.mp hs
      subst heq
      exact sfx_shape v' s0 sc0 hmem
    have hupd : dictUpdate res (flatten v (addrIdx pre i)) =
        res ++ flatten v (addrIdx pre i) := by
      apply dictUpdate_append
      · rw [hblock, List.map_map,
          show (Prod.fst ∘ fun p : List Char × Scalar =>
            (renderAddr pre ('[' :: (Nat.repr i).data ++ ']' :: p.1), p.2)) =
            ((fun s => renderAddr pre ('[' :: (Nat.repr i).data ++ ']' :: s)) ∘ Prod.fst)
            from rfl,
          ← List.map_map]
        refine List.Nodup.map_on ?_ (sfx_nodup v hwv)
        intro s1 _ s2 _ heq
        exact ((renderAddr_list_eq_iff pre i i s1 s2).mp heq).2
      · intro key hkey
        rw [hblock, List.map_map] at hkey
        obtain ⟨⟨s0, sc0⟩, hmem, heq⟩ := List.mem_map.mp hkey
        subst heq
        refine hfresh ('[' :: (Nat.repr i).data ++ ']' :: s0) sc0 ?_
        refine (mem_sfxElems (v :: t) i _ sc0).mpr ⟨i, v, s0, Nat.le_refl i, ?_, hmem, rfl⟩
        simp
    show flattenElems t (i + 1) pre (dictUpdate res (flatten v (addrIdx pre i))) = _
    rw [hupd, hblock, ih (i + 1) (res ++ (sfx v).map
        (fun p => (renderAddr pre ('[' :: (Nat.repr i).data ++ ']' :: p.1), p.2))) hwt
      (fun v' hm => hbr v' (List.mem_cons_of_mem _ hm)) ?_]
    · simp only [sfxElems, List.map_append, List.map_map, List.append_assoc]
      rfl
    · intro s sc hmem hcontra
      rw [List.map_append, List.mem_append] at hcontra
      obtain ⟨j, v', s', hij, hget, hs', hp'⟩ := (mem_sfxElems t (i + 1) s sc).mp hmem
      rcases hcontra with hcontra | hcontra
      · refine hfresh s sc ?_ hcontra
        refine (mem_sfxElems (v :: t) i s sc).mpr ⟨j, v', s', by omega, ?_, hs', hp'⟩
        have hji : j - i = (j - (i + 1)) + 1 := by omega
        rw [hji, List.get?_cons_succ]
        exact hget
      · rw [List.map_map] at hcontra
        obtain ⟨⟨s0, sc0⟩, hmem0, heq0⟩ := List.mem_map.mp hcontra
        have := heq0
        simp only at this
        rw [hp'] at this
        have hiff := (renderAddr_list_eq_iff pre i j s0 s').mp this
        omega

theorem renderAddr_nil (pre : String) : renderAddr pre [] = pre := by
  unfold renderAddr
  by_cases hpre : pre.data = []
  · rw [if_pos hpre]
    exact String.ext hpre.symm
  · rw [if_neg hpre, List.append_nil]

/-- Under a nonempty prefix, `flatten` appends each leaf's structured
suffix to the prefix verbatim. -/
theorem flatten_eq_sfx_aux : ∀ (n : Nat) (d : Value), sizeOf d ≤ n →
    wfDoc d = true → ∀ q : String, ¬ q.data = [] →
    flatten d q = (sfx d).map (fun p => (String.mk (q.data ++ p.1), p.2)) := by
  intro n
  induction n with
  | zero =>
    intro d hsize _
    cases d <;> simp at hsize <;> omega
  | succ n ih =>
    intro d hsize hwf q hq
    cases d with
    | scalar s =>
      simp only [flatten, sfx, List.map_cons, List.map_nil, List.append_nil]
    | dict kvs =>
      simp only [wfDoc, Bool.and_eq_true] at hwf
      have hbr : ∀ k v, (k, v) ∈ kvs → ∀ q' : String, ¬ q'.data = [] →
          flatten v q' = (sfx v).map (fun p => (String.mk (q'.data ++ p.1), p.2)) := by
        intro k v hm q' hq'
        have hs : sizeOf v ≤ n := by
          have := List.sizeOf_lt_of_mem hm
          simp at this hsize ⊢
          omega
        exact ih v hs (wfDocFields_mem kvs hwf.2 k v hm).2 q' hq'
      show flattenFields kvs q [] = _
      rw [flattenFields_eq kvs q [] hwf.2 hwf.1.2 hbr (by simp), List.nil_append]
      show _ = (sfxFields kvs).map _
      apply List.map_congr_left
      intro p _
      rw [renderAddr_of_ne q hq]
    | list xs =>
      simp only [wfDoc, Bool.and_eq_true] at hwf
      have hbr : ∀ v, v ∈ xs → ∀ q' : String, ¬ q'.data = [] →
          flatten v q' = (sfx v).map (fun p => (String.mk (q'.data ++ p.1), p.2)) := by
        intro v hm q' hq'
        have hs : sizeOf v ≤ n := by
          have := List.sizeOf_lt_of_mem hm
          simp at this hsize ⊢
          omega
        exact ih v hs (wfDocList_mem xs hwf.2 v hm) q' hq'
      show flattenElems xs 0 q [] = _
      rw [flattenElems_eq xs q 0 [] hwf.2 hbr (by simp), List.nil_append]
      show _ = (sfxElems xs 0).map _
      apply List.map_congr_left
      intro p _
      rw [renderAddr_of_ne q hq]

/-- `flatten` of a well-formed document is the rendered structured
flattening, at every prefix. -/
theorem flatten_eq_sfx (d : Value) (hwf : wfDoc d = true) (pre : String) :
    flatten d pre = (sfx d).map (fun p => (renderAddr pre p.1, p.2)) := by
  cases d with
  | scalar s =>
    simp only [flatten, sfx, List.map_cons, List.map_nil, renderAddr_nil]
  | dict kvs =>
    simp only [wfDoc, Bool.and_eq_true] at hwf
    have hbr : ∀ k v, (k, v) ∈ kvs → ∀ q' : String, ¬ q'.data = [] →
        flatten v q' = (sfx v).map (fun p => (String.mk (q'.data ++ p.1), p.2)) :=
      fun k v hm q' hq' =>
        flatten_eq_sfx_aux (sizeOf v) v (Nat.le_refl _)
          (wfDocFields_mem kvs hwf.2 k v hm).2 q' hq'
    show flattenFields kvs pre [] = _
    rw [flattenFields_eq kvs pre [] hwf.2 hwf.1.2 hbr (by simp), List.nil_append]
    rfl
  | list xs =>
    simp only [wfDoc, Bool.and_eq_true] at hwf
    have hbr : ∀ v, v ∈ xs → ∀ q' : String, ¬ q'.data = [] →
        flatten v q' = (sfx v).map (fun p => (String.mk (q'.data ++ p.1), p.2)) :=
      fun v hm q' hq' =>
        flatten_eq_sfx_aux (sizeOf v) v (Nat.le_refl _)
          (wfDocList_mem xs hwf.2 v hm) q' hq'
    show flattenElems xs 0 pre [] = _
    rw [flattenElems_eq xs pre 0 [] hwf.2 hbr (by simp), List.nil_append]
    rfl

theorem cleanKey_sep (k : String) (h : cleanKey k = true) : noSepB k.data = true := by
  simp only [cleanKey, Bool.and_eq_true] at h
  exact h.2

theorem cleanKey_ne (k : String) (h : cleanKey k = true) : ¬ k.data = [] := by
  simp only [cleanKey, Bool.and_eq_true, Bool.not_eq_true'] at h
  intro hc
  rw [hc] at h
  simp at h

/-- Two decompositions of a list into a `P`-part followed by a
`¬P`-part coincide. -/
theorem append_eq_split {α : Type} (P : α → Prop) :
    ∀ (a1 b1 a2 b2 : List α), (∀ x ∈ a1, P x) → (∀ x ∈ b1, ¬ P x) →
      (∀ x ∈ a2, P x) → (∀ x ∈ b2, ¬ P x) →
      a1 ++ b1 = a2 ++ b2 → a1 = a2 ∧ b1 = b2 := by
  intro a1
  induction a1 with
  | nil =>
    intro b1 a2 b2 _ hb1 ha2 _ heq
    cases a2 with
    | nil => exact ⟨rfl, by simpa using heq⟩
    | cons y ys =>
      rw [List.nil_append] at heq
      exact absurd (ha2 y (List.mem_cons_self _ _))
        (hb1 y (by rw [heq]; exact List.mem_append_left _ (List.mem_cons_self _ _)))
  | cons x xs ih =>
    intro b1 a2 b2 ha1 hb1 ha2 hb2 heq
    cases a2 with
    | nil =>
      rw [List.nil_append] at heq
      exact absurd (ha1 x (List.mem_cons_self _ _))
        (hb2 x (by rw [← heq]; exact List.mem_append_left _ (List.mem_cons_self _ _)))
    | cons y ys =>
      simp only [List.cons_append, List.cons.injEq] at heq
      obtain ⟨hxy, htail⟩ := heq
      obtain ⟨h1, h2⟩ := ih b1 ys b2 (fun z hz => ha1 z (List.mem_cons_of_mem _ hz)) hb1
        (fun z hz => ha2 z (List.mem_cons_of_mem _ hz)) hb2 htail
      exact ⟨by rw [hxy, h1], h2⟩

/-- Equal images under a map injective on the members give equal lists. -/
theorem map_eq_of_inj_on {α β : Type} (f : α → β) :
    ∀ (l1 l2 : List α), (∀ x ∈ l1, ∀ y ∈ l2, f x = f y → x = y) →
      l1.map f = l2.map f → l1 = l2 := by
  intro l1
  induction l1 with
  | nil =>
    intro l2 _ heq
    cases l2 with
    | nil => rfl
    | cons y ys => simp at heq
  | cons x xs ih =>
    intro l2 hinj heq
    cases l2 with
    | nil => simp at heq
    | cons y ys =>
      simp only [List.map_cons, List.cons.injEq] at heq
      rw [hinj x (List.mem_cons_self _ _) y (List.mem_cons_self _ _) heq.1,
        ih ys (fun a ha b hb => hinj a (List.mem_cons_of_mem _ ha) b
          (List.mem_cons_of_mem _ hb)) heq.2]

/-- Within one document all suffixes have the same head shape, so
dropping a leading dot is injective on them. -/
theorem dropLeadingDot_inj_on (d : Value) :
    ∀ s1 sc1 s2 sc2, (s1, sc1) ∈ sfx d → (s2, sc2) ∈ sfx d →
      dropLeadingDot s1 = dropLeadingDot s2 → s1 = s2 := by
  intro s1 sc1 s2 sc2 h1 h2 heq
  cases d with
  | scalar s =>
    simp only [sfx, List.mem_singleton, Prod.mk.injEq] at h1 h2
    rw [h1.1, h2.1]
  | dict kvs =>
    obtain ⟨k, v, s, _, _, ha⟩ := (mem_sfxFields kvs s1 sc1).mp h1
    obtain ⟨k', v', s', _, _, hc⟩ := (mem_sfxFields kvs s2 sc2).mp h2
    rw [ha, hc] at heq ⊢
    rw [List.cons_append, List.cons_append, dropLeadingDot_dot, dropLeadingDot_dot] at heq
    rw [List.cons_append, List.cons_append, heq]
  | list xs =>
    obtain ⟨j, v, s, _, _, _, ha⟩ := (mem_sfxElems xs 0 s1 sc1).mp h1
    obtain ⟨j', v', s', _, _, _, hc⟩ := (mem_sfxElems xs 0 s2 sc2).mp h2
    rw [ha, hc] at heq ⊢
    rw [List.cons_append, List.cons_append, dropLeadingDot_bracket,
      dropLeadingDot_bracket] at heq
    rw [List.cons_append, List.cons_append]
    exact heq

/-- Field suffix blocks determine the mapping, given injectivity for the
children. -/
theorem sfxFields_inj : ∀ (kvs1 kvs2 : List (String × Value)),
    wfDocFields kvs1 = true → wfDocFields kvs2 = true →
    distinctKeys (kvs1.map Prod.fst) = true →
    distinctKeys (kvs2.map Prod.fst) = true →
    (∀ k v, (k, v) ∈ kvs1 → ∀ v2, wfDoc v2 = true → sfx v = sfx v2 → v = v2) →
    sfxFields kvs1 = sfxFields kvs2 → kvs1 = kvs2 := by
  intro kvs1
  induction kvs1 with
  | nil =>
    intro kvs2 _ hw2 _ _ _ heq
    cases kvs2 with
    | nil => rfl
    | cons q t =>
      obtain ⟨k2, v2⟩ := q
      exfalso
      simp only [wfDocFields, Bool.and_eq_true] at hw2
      simp only [sfxFields] at heq
      rcases List.append_eq_nil.mp heq.symm with ⟨h1, _⟩
      exact sfx_ne_nil v2 hw2.1.2 (List.map_eq_nil.mp h1)
  | cons q1 t1 ih =>
    obtain ⟨k1, v1⟩ := q1
    intro kvs2 hw1 hw2 hd1 hd2 hinj heq
    cases kvs2 with
    | nil =>
      exfalso
      simp only [wfDocFields, Bool.and_eq_true] at hw1
      simp only [sfxFields] at heq
      rcases List.append_eq_nil.mp heq with ⟨h1, _⟩
      exact sfx_ne_nil v1 hw1.1.2 (List.map_eq_nil.mp h1)
    | cons q2 t2 =>
      obtain ⟨k2, v2⟩ := q2
      simp only [wfDocFields, Bool.and_eq_true] at hw1 hw2
      obtain ⟨⟨hck1, hwv1⟩, hwt1⟩ := hw1
      obtain ⟨⟨hck2, hwv2⟩, hwt2⟩ := hw2
      simp only [List.map_cons] at hd1 hd2
      obtain ⟨hk1not, hd1t⟩ := distinctKeys_head _ _ hd1
      obtain ⟨hk2not, hd2t⟩ := distinctKeys_head _ _ hd2
      simp only [sfxFields] at heq
      obtain ⟨⟨s1, sc1⟩, r1, hsfx1⟩ : ∃ p r, sfx v1 = p :: r := by
        cases hs : sfx v1 with
        | nil => exact absurd hs (sfx_ne_nil v1 hwv1)
        | cons p r => exact ⟨p, r, rfl⟩
      obtain ⟨⟨s2, sc2⟩, r2, hsfx2⟩ : ∃ p r, sfx v2 = p :: r := by
        cases hs : sfx v2 with
        | nil => exact absurd hs (sfx_ne_nil v2 hwv2)
        | cons p r => exact ⟨p, r, rfl⟩
      have hkk : k1 = k2 := by
        have h := heq
        rw [hsfx1, hsfx2] at h
        simp only [List.map_cons, List.cons_append, List.cons.injEq, Prod.mk.injEq] at h
        have hsplit := clean_shaped_split k1.data k2.data s1 s2
          (cleanKey_sep k1 hck1) (cleanKey_sep k2 hck2)
          (sfx_shape v1 s1 sc1 (by rw [hsfx1]; exact List.mem_cons_self _ _))
          (sfx_shape v2 s2 sc2 (by rw [hsfx2]; exact List.mem_cons_self _ _)) h.1.1.2
        exact String.ext hsplit.1
      subst hkk
      have hsplit := append_eq_split
        (fun p : List Char × Scalar => ∃ s, shapedB s = true ∧ p.1 = '.' :: k1.data ++ s)
        ((sfx v1).map (fun p => ('.' :: k1.data ++ p.1, p.2))) (sfxFields t1)
        ((sfx v2).map (fun p => ('.' :: k1.data ++ p.1, p.2))) (sfxFields t2)
        ?_ ?_ ?_ ?_ heq
      · obtain ⟨hblk, hrest⟩ := hsplit
        have hsfxeq : sfx v1 = sfx v2 := by
          refine map_eq_of_inj_on _ _ _ ?_ hblk
          intro x _ y _ hfeq
          obtain ⟨a1, b1⟩ := x
          obtain ⟨a2, b2⟩ := y
          simp only [Prod.mk.injEq, List.cons_append, List.cons.injEq, true_and] at hfeq
          rw [Prod.mk.injEq]
          exact ⟨List.append_cancel_left hfeq.1, hfeq.2⟩
        rw [hinj k1 v1 (List.mem_cons_self _ _) v2 hwv2 hsfxeq,
          ih t2 hwt1 hwt2 hd1t hd2t
            (fun k v hm v' hw hs => hinj k v (List.mem_cons_of_mem _ hm) v' hw hs) hrest]
      · intro x hx
        obtain ⟨⟨s0, sc0⟩, hmem, hfeq⟩ := List.mem_map.mp hx
        exact ⟨s0, sfx_shape v1 s0 sc0 hmem, by rw [← hfeq]⟩
      · intro x hx hP
        obtain ⟨u, hu, hxu⟩ := hP
        obtain ⟨a, b⟩ := x
        obtain ⟨k', v', s', hm', hs', ha⟩ := (mem_sfxFields t1 a b).mp hx
        simp only at hxu
        rw [hxu] at ha
        refine dict_block_ne k1 k' u s' hck1
          (wfDocFields_mem t1 hwt1 k' v' hm').1 hu
          (sfx_shape v' s' b hs') ?_ ha
        intro hc
        subst hc
        exact hk1not (List.mem_map.mpr ⟨(k1, v'), hm', rfl⟩)
      · intro x hx
        obtain ⟨⟨s0, sc0⟩, hmem, hfeq⟩ := List.mem_map.mp hx
        exact ⟨s0, sfx_shape v2 s0 sc0 hmem, by rw [← hfeq]⟩
      · intro x hx hP
        obtain ⟨u, hu, hxu⟩ := hP
        obtain ⟨a, b⟩ := x
        obtain ⟨k', v', s', hm', hs', ha⟩ := (mem_sfxFields t2 a b).mp hx
        simp only at hxu
        rw [hxu] at ha
        refine dict_block_ne k1 k' u s' hck1
          (wfDocFields_mem t2 hwt2 k' v' hm').1 hu
          (sfx_shape v' s' b hs') ?_ ha
        intro hc
        subst hc
        exact hk2not (List.mem_map.mpr ⟨(k1, v'), hm', rfl⟩)

/-- Element suffix blocks determine the sequence, given injectivity for
the elements. -/
theorem sfxElems_inj : ∀ (xs1 xs2 : List Value) (i : Nat),
    wfDocList xs1 = true → wfDocList xs2 = true →
    (∀ v, v ∈ xs1 → ∀ v2, wfDoc v2 = true → sfx v = sfx v2 → v = v2) →
    sfxElems xs1 i = sfxElems xs2 i → xs1 = xs2 := by
  intro xs1
  induction xs1 with
  | nil =>
    intro xs2 i _ hw2 _ heq
    cases xs2 with
    | nil => rfl
    | cons v2 t2 =>
      exfalso
      simp only [wfDocList, Bool.and_eq_true] at hw2
      simp only [sfxElems] at heq
      rcases List.append_eq_nil.mp heq.symm with ⟨h1, _⟩
      exact sfx_ne_nil v2 hw2.1 (List.map_eq_nil_iff.mp h1)
  | cons v1 t1 ih =>
    intro xs2 i hw1 hw2 hinj heq
    cases xs2 with
    | nil =>
      exfalso
      simp only [wfDocList, Bool.and_eq_true] at hw1
      simp only [sfxElems] at heq
      rcases List.append_eq_nil.mp heq with ⟨h1, _⟩
      exact sfx_ne_nil v1 hw1.1 (List.map_eq_nil_iff.mp h1)
    | cons v2 t2 =>
      simp only [wfDocList, Bool.and_eq_true] at hw1 hw2
      obtain ⟨hwv1, hwt1⟩ := hw1
      obtain ⟨hwv2, hwt2⟩ := hw2
      simp only [sfxElems] at heq
      have hsplit := append_eq_split
        (fun p : List Char × Scalar =>
          ∃ s, p.1 = '[' :: (Nat.repr i).data ++ ']' :: s)
        ((sfx v1).map (fun p => ('[' :: (Nat.repr i).data ++ ']' :: p.1, p.2)))
        (sfxElems t1 (i + 1))
        ((sfx v2).map (fun p => ('[' :: (Nat.repr i).data ++ ']' :: p.1, p.2)))
        (sfxElems t2 (i + 1))
        ?_ ?_ ?_ ?_ heq
      · obtain ⟨hblk, hrest⟩ := hsplit
        have hsfxeq : sfx v1 = sfx v2 := by
          refine map_eq_of_inj_on _ _ _ ?_ hblk
          intro x _ y _ hfeq
          obtain ⟨a1, b1⟩ := x
          obtain ⟨a2, b2⟩ := y
          simp only [Prod.mk.injEq, List.cons_append, List.cons.injEq, true_and] at hfeq
          rw [Prod.mk.injEq]
          have h2 := List.append_cancel_left hfeq.1
          simp only [List.cons.injEq, true_and] at h2
          exact ⟨h2, hfeq.2⟩
        rw [hinj v1 (List.mem_cons_self _ _) v2 hwv2 hsfxeq,
          ih t2 (i + 1) hwt1 hwt2
            (fun v hm v' hw hs => hinj v (List.mem_cons_of_mem _ hm) v' hw hs) hrest]
      · intro x hx
        obtain ⟨⟨s0, sc0⟩, hmem, hfeq⟩ := List.mem_map.mp hx
        exact ⟨s0, by rw [← hfeq]⟩
      · intro x hx hP
        obtain ⟨u, hxu⟩ := hP
        obtain ⟨a, b⟩ := x
        obtain ⟨j, v', s', hij, hget, hs', ha⟩ := (mem_sfxElems t1 (i + 1) a b).mp hx
        simp only at hxu
        rw [hxu] at ha
        exact list_block_ne i j u s' (by omega) ha
      · intro x hx
        obtain ⟨⟨s0, sc0⟩, hmem, hfeq⟩ := List.mem_map.mp hx
        exact ⟨s0, by rw [← hfeq]⟩
      · intro x hx hP
        obtain ⟨u, hxu⟩ := hP
        obtain ⟨a, b⟩ := x
        obtain ⟨j, v', s', hij, hget, hs', ha⟩ := (mem_sfxElems t2 (i + 1) a b).mp hx
        simp only at hxu
        rw [hxu] at ha
        exact list_block_ne i j u s' (by omega) ha

/-- The structured flattening is injective on well-formed documents. -/
theorem sfx_inj_aux : ∀ (n : Nat) (d1 : Value), sizeOf d1 ≤ n → wfDoc d1 = true →
    ∀ d2 : Value, wfDoc d2 = true → sfx d1 = sfx d2 → d1 = d2 := by
  intro n
  induction n with
  | zero =>
    intro d1 hsize _
    cases d1 <;> simp at hsize <;> omega
  | succ n ih =>
    intro d1 hsize hwf1 d2 hwf2 heq
    cases d1 with
    | scalar s1 =>
      cases d2 with
      | scalar s2 =>
        simp only [sfx, List.cons.injEq, Prod.mk.injEq] at heq
        rw [heq.1.2]
      | dict kvs =>
        exfalso
        have hmem : (([] : List Char), s1) ∈ sfxFields kvs := by
          rw [show sfxFields kvs = sfx (Value.dict kvs) from rfl, ← heq]
          simp [sfx]
        obtain ⟨k, v, s, _, _, hcontra⟩ := (mem_sfxFields kvs [] s1).mp hmem
        simp at hcontra
      | list xs =>
        exfalso
        have hmem : (([] : List Char), s1) ∈ sfxElems xs 0 := by
          rw [show sfxElems xs 0 = sfx (Value.list xs) from rfl, ← heq]
          simp [sfx]
        obtain ⟨j, v, s, _, _, _, hcontra⟩ := (mem_sfxElems xs 0 [] s1).mp hmem
        simp at hcontra
    | dict kvs1 =>
      cases d2 with
      | scalar s2 =>
        exfalso
        have hmem : (([] : List Char), s2) ∈ sfxFields kvs1 := by
          rw [show sfxFields kvs1 = sfx (Value.dict kvs1) from rfl, heq]
          simp [sfx]
        obtain ⟨k, v, s, _, _, hcontra⟩ := (mem_sfxFields kvs1 [] s2).mp hmem
        simp at hcontra
      | dict kvs2 =>
        simp only [wfDoc, Bool.and_eq_true] at hwf1 hwf2
        have hIH : ∀ k v, (k, v) ∈ kvs1 → ∀ v2, wfDoc v2 = true → sfx v = sfx v2 →
            v = v2 := by
          intro k v hm v2 hw2 hs
          have hsv : sizeOf v ≤ n := by
            have := List.sizeOf_lt_of_mem hm
            simp at this hsize ⊢
            omega
          exact ih v hsv (wfDocFields_mem kvs1 hwf1.2 k v hm).2 v2 hw2 hs
        rw [sfxFields_inj kvs1 kvs2 hwf1.2 hwf2.2 hwf1.1.2 hwf2.1.2 hIH heq]
      | list xs2 =>
        exfalso
        obtain ⟨⟨s, sc⟩, r, hcons⟩ : ∃ p r, sfxFields kvs1 = p :: r := by
          cases hs : sfxFields kvs1 with
          | nil => exact absurd hs (sfx_ne_nil (Value.dict kvs1) hwf1)
          | cons p r => exact ⟨p, r, rfl⟩
        have hm1 : (s, sc) ∈ sfxFields kvs1 := by
          rw [hcons]
          exact List.mem_cons_self _ _
        have hm2 : (s, sc) ∈ sfxElems xs2 0 := by
          rw [show sfxElems xs2 0 = sfx (Value.list xs2) from rfl, ← heq]
          exact hm1
        obtain ⟨k, v, s', _, _, hs1⟩ := (mem_sfxFields kvs1 s sc).mp hm1
        obtain ⟨j, v', s'', _, _, _, hs2⟩ := (mem_sfxElems xs2 0 s sc).mp hm2
        rw [hs1] at hs2
        simp only [List.cons_append, List.cons.injEq] at hs2
        exact absurd hs2.1 (by decide)
    | list xs1 =>
      cases d2 with
      | scalar s2 =>
        exfalso
        have hmem : (([] : List Char), s2) ∈ sfxElems xs1 0 := by
          rw [show sfxElems xs1 0 = sfx (Value.list xs1) from rfl, heq]
          simp [sfx]
        obtain ⟨j, v, s, _, _, _, hcontra⟩ := (mem_sfxElems xs1 0 [] s2).mp hmem
        simp at hcontra
      | dict kvs2 =>
        exfalso
        obtain ⟨⟨s, sc⟩, r, hcons⟩ : ∃ p r, sfxFields kvs2 = p :: r := by
          cases hs : sfxFields kvs2 with
          | nil => exact absurd hs (sfx_ne_nil (Value.dict kvs2) hwf2)
          | cons p r => exact ⟨p, r, rfl⟩
        have hm1 : (s, sc) ∈ sfxFields kvs2 := by
          rw [hcons]
          exact List.mem_cons_self _ _
        have hm2 : (s, sc) ∈ sfxElems xs1 0 := by
          rw [show sfxElems xs1 0 = sfx (Value.list xs1) from rfl, heq]
          exact hm1
        obtain ⟨k, v, s', _, _, hs1⟩ := (mem_sfxFields kvs2 s sc).mp hm1
        obtain ⟨j, v', s'', _, _, _, hs2⟩ := (mem_sfxElems xs1 0 s sc).mp hm2
        rw [hs1] at hs2
        simp only [List.cons_append, List.cons.injEq] at hs2
        exact absurd hs2.1 (by decide)
      | list xs2 =>
        simp only [wfDoc, Bool.and_eq_true] at hwf1 hwf2
        have hIH : ∀ v, v ∈ xs1 → ∀ v2, wfDoc v2 = true → sfx v = sfx v2 → v = v2 := by
          intro v hm v2 hw2 hs
          have hsv : sizeOf v ≤ n := by
            have := List.sizeOf_lt_of_mem hm
            simp at this hsize ⊢
            omega
          exact ih v hsv (wfDocList_mem xs1 hwf1.2 v hm) v2 hw2 hs
        rw [sfxElems_inj xs1 xs2 0 hwf1.2 hwf2.2 hIH heq]

/-- The structured flattening is injective on well-formed documents. -/
theorem sfx_inj (d1 d2 : Value) (h1 : wfDoc d1 = true) (h2 : wfDoc d2 = true)
    (heq : sfx d1 = sfx d2) : d1 = d2 :=
  sfx_inj_aux (sizeOf d1) d1 (Nat.le_refl _) h1 d2 h2 heq

theorem renderAddr_root (s : List Char) :
    renderAddr "" s = String.mk (dropLeadingDot s) := by
  unfold renderAddr
  rw [if_pos rfl]

/-- Root flattening renders each suffix with its leading dot dropped. -/
theorem flatten_root (d : Value) (hwf : wfDoc d = true) :
    flatten d "" = ((sfx d).map (fun p => (dropLeadingDot p.1, p.2))).map
      (fun p => (String.mk p.1, p.2)) := by
  rw [flatten_eq_sfx d hwf "", List.map_map]
  apply List.map_congr_left
  intro p _
  simp only [Function.comp]
  rw [renderAddr_root]

/-- Equal root flattenings give equal dot-dropped suffix maps. -/
theorem flatten_root_D (d1 d2 : Value) (h1 : wfDoc d1 = true) (h2 : wfDoc d2 = true)
    (heq : flatten d1 "" = flatten d2 "") :
    (sfx d1).map (fun p => (dropLeadingDot p.1, p.2)) =
      (sfx d2).map (fun p => (dropLeadingDot p.1, p.2)) := by
  rw [flatten_root d1 h1, flatten_root d2 h2] at heq
  refine map_eq_of_inj_on _ _ _ ?_ heq
  intro x _ y _ hxy
  obtain ⟨a, b⟩ := x
  obtain ⟨c, d⟩ := y
  simp only [Prod.mk.injEq] at hxy ⊢
  exact ⟨congrArg String.data hxy.1, hxy.2⟩

/-- Equal dot-dropped suffix maps give equal structured flattenings. -/
theorem sfx_eq_of_root (d1 d2 : Value) (h1 : wfDoc d1 = true) (h2 : wfDoc d2 = true)
    (heq : (sfx d1).map (fun p => (dropLeadingDot p.1, p.2)) =
      (sfx d2).map (fun p => (dropLeadingDot p.1, p.2))) : sfx d1 = sfx d2 := by
  cases d1 with
  | scalar s1 =>
    cases d2 with
    | scalar s2 =>
      have hss : s1 = s2 := by
        simpa [sfx, dropLeadingDot] using heq
      rw [hss]
    | dict kvs =>
      exfalso
      have hmem : ((dropLeadingDot [], s1) : List Char × Scalar) ∈
          (sfxFields kvs).map (fun p => (dropLeadingDot p.1, p.2)) := by
        rw [show sfxFields kvs = sfx (Value.dict kvs) from rfl, ← heq]
        simp [sfx]
      obtain ⟨⟨a, b⟩, hm, hD⟩ := List.mem_map.mp hmem
      obtain ⟨k, v, s, _, _, ha⟩ := (mem_sfxFields kvs a b).mp hm
      simp only [Prod.mk.injEq] at hD
      rw [ha, List.cons_append, dropLeadingDot_dot] at hD
      have hck := (wfDocFields_mem kvs (by
        simp only [wfDoc, Bool.and_eq_true] at h2
        exact h2.2) k v (by assumption)).1
      rcases List.append_eq_nil.mp hD.1 with ⟨hknil, _⟩
      exact cleanKey_ne k hck hknil
    | list xs =>
      exfalso
      have hmem : ((dropLeadingDot [], s1) : List Char × Scalar) ∈
          (sfxElems xs 0).map (fun p => (dropLeadingDot p.1, p.2)) := by
        rw [show sfxElems xs 0 = sfx (Value.list xs) from rfl, ← heq]
        simp [sfx]
      obtain ⟨⟨a, b⟩, hm, hD⟩ := List.mem_map.mp hmem
      obtain ⟨j, v, s, _, _, _, ha⟩ := (mem_sfxElems xs 0 a b).mp hm
      simp only [Prod.mk.injEq] at hD
      rw [ha, List.cons_append, dropLeadingDot_bracket] at hD
      exact List.cons_ne_nil _ _ hD.1
  | dict kvs1 =>
    cases d2 with
    | scalar s2 =>
      exfalso
      have hmem : ((dropLeadingDot [], s2) : List Char × Scalar) ∈
          (sfxFields kvs1).map (fun p => (dropLeadingDot p.1, p.2)) := by
        rw [show sfxFields kvs1 = sfx (Value.dict kvs1) from rfl, heq]
        simp [sfx]
      obtain ⟨⟨a, b⟩, hm, hD⟩ := List.mem_map.mp hmem
      obtain ⟨k, v, s, _, _, ha⟩ := (mem_sfxFields kvs1 a b).mp hm
      simp only [Prod.mk.injEq] at hD
      rw [ha, List.cons_append, dropLeadingDot_dot] at hD
      have hck := (wfDocFields_mem kvs1 (by
        simp only [wfDoc, Bool.and_eq_true] at h1
        exact h1.2) k v (by assumption)).1
      rcases List.append_eq_nil.mp hD.1 with ⟨hknil, _⟩
      exact cleanKey_ne k hck hknil
    | dict kvs2 =>
      refine map_eq_of_inj_on _ _ _ ?_ heq
      intro x hmx y hmy hD
      obtain ⟨a, b⟩ := x
      obtain ⟨c, d⟩ := y
      obtain ⟨k, v, s, _, _, ha⟩ := (mem_sfxFields kvs1 a b).mp hmx
      obtain ⟨k', v', s', _, _, hc⟩ := (mem_sfxFields kvs2 c d).mp hmy
      simp only [Prod.mk.injEq] at hD ⊢
      refine ⟨?_, hD.2⟩
      rw [ha, hc] at hD ⊢
      rw [List.cons_append, List.cons_append, dropLeadingDot_dot,
        dropLeadingDot_dot] at hD
      rw [List.cons_append, List.cons_append, hD.1]
    | list xs2 =>
      exfalso
      obtain ⟨⟨s, sc⟩, r, hcons⟩ : ∃ p r, sfxFields kvs1 = p :: r := by
        cases hs : sfxFields kvs1 with
        | nil => exact absurd hs (sfx_ne_nil (Value.dict kvs1) h1)
        | cons p r => exact ⟨p, r, rfl⟩
      have hmem : ((dropLeadingDot s, sc) : List Char × Scalar) ∈
          (sfxElems xs2 0).map (fun p => (dropLeadingDot p.1, p.2)) := by
        rw [show sfxElems xs2 0 = sfx (Value.list xs2) from rfl, ← heq]
        refine List.mem_map.mpr ⟨(s, sc), ?_, rfl⟩
        rw [show sfx (Value.dict kvs1) = sfxFields kvs1 from rfl, hcons]
        exact List.mem_cons_self _ _
      obtain ⟨⟨a, b⟩, hm, hD⟩ := List.mem_map.mp hmem
      obtain ⟨j, v', s'', _, _, _, ha⟩ := (mem_sfxElems xs2 0 a b).mp hm
      have hm1 : (s, sc) ∈ sfxFields kvs1 := by
        rw [hcons]
        exact List.mem_cons_self _ _
      obtain ⟨k, v, s', hkm, _, hs⟩ := (mem_sfxFields kvs1 s sc).mp hm1
      simp only [Prod.mk.injEq] at hD
      rw [ha, hs, List.cons_append, List.cons_append, dropLeadingDot_bracket,
        dropLeadingDot_dot] at hD
      have hck := (wfDocFields_mem kvs1 (by
        simp only [wfDoc, Bool.and_eq_true] at h1
        exact h1.2) k v hkm).1
      obtain ⟨ch, rest, hkd⟩ : ∃ ch rest, k.data = ch :: rest := by
        cases hk : k.data with
        | nil => exact absurd hk (cleanKey_ne k hck)
        | cons ch rest => exact ⟨ch, rest, rfl⟩
      have hchm := (List.all_eq_true.mp (cleanKey_sep k hck)) ch
        (by rw [hkd]; exact List.mem_cons_self _ _)
      simp only [Bool.not_eq_true', Bool.or_eq_false_iff,
        decide_eq_false_iff_not] at hchm
      rw [hkd, List.cons_append] at hD
      have := hD.1
      simp only [List.cons.injEq] at this
      exact hchm.1.2 this.1.symm
  | list xs1 =>
    cases d2 with
    | scalar s2 =>
      exfalso
      have hmem : ((dropLeadingDot [], s2) : List Char × Scalar) ∈
          (sfxElems xs1 0).map (fun p => (dropLeadingDot p.1, p.2)) := by
        rw [show sfxElems xs1 0 = sfx (Value.list xs1) from rfl, heq]
        simp [sfx]
      obtain ⟨⟨a, b⟩, hm, hD⟩ := List.mem_map.mp hmem
      obtain ⟨j, v, s, _, _, _, ha⟩ := (mem_sfxElems xs1 0 a b).mp hm
      simp only [Prod.mk.injEq] at hD
      rw [ha, List.cons_append, dropLeadingDot_bracket] at hD
      exact List.cons_ne_nil _ _ hD.1
    | dict kvs2 =>
      exfalso
      obtain ⟨⟨s, sc⟩, r, hcons⟩ : ∃ p r, sfxFields kvs2 = p :: r := by
        cases hs : sfxFields kvs2 with
        | nil => exact absurd hs (sfx_ne_nil (Value.dict kvs2) h2)
        | cons p r => exact ⟨p, r, rfl⟩
      have hmem : ((dropLeadingDot s, sc) : List Char × Scalar) ∈
          (sfxElems xs1 0).map (fun p => (dropLeadingDot p.1, p.2)) := by
        rw [show sfxElems xs1 0 = sfx (Value.list xs1) from rfl, heq]
        refine List.mem_map.mpr ⟨(s, sc), ?_, rfl⟩
        rw [show sfx (Value.dict kvs2) = sfxFields kvs2 from rfl, hcons]
        exact List.mem_cons_self _ _
      obtain ⟨⟨a, b⟩, hm, hD⟩ := List.mem_map.mp hmem
      obtain ⟨j, v', s'', _, _, _, ha⟩ := (mem_sfxElems xs1 0 a b).mp hm
      have hm1 : (s, sc) ∈ sfxFields kvs2 := by
        rw [hcons]
        exact List.mem_cons_self _ _
      obtain ⟨k, v, s', hkm, _, hs⟩ := (mem_sfxFields kvs2 s sc).mp hm1
      simp only [Prod.mk.injEq] at hD
      rw [ha, hs, List.cons_append, List.cons_append, dropLeadingDot_bracket,
        dropLeadingDot_dot] at hD
      have hck := (wfDocFields_mem kvs2 (by
        simp only [wfDoc, Bool.and_eq_true] at h2
        exact h2.2) k v hkm).1
      obtain ⟨ch, rest, hkd⟩ : ∃ ch rest, k.data = ch :: rest := by
        cases hk : k.data with
        | nil => exact absurd hk (cleanKey_ne k hck)
        | cons ch rest => exact ⟨ch, rest, rfl⟩
      have hchm := (List.all_eq_true.mp (cleanKey_sep k hck)) ch
        (by rw [hkd]; exact List.mem_cons_self _ _)
      simp only [Bool.not_eq_true', Bool.or_eq_false_iff,
        decide_eq_false_iff_not] at hchm
      rw [hkd, List.cons_append] at hD
      have := hD.1
      simp only [List.cons.injEq] at this
      exact hchm.1.2 this.1.symm
    | list xs2 =>
      refine map_eq_of_inj_on _ _ _ ?_ heq
      intro x hmx y hmy hD
      obtain ⟨a, b⟩ := x
      obtain ⟨c, d⟩ := y
      obtain ⟨j, v, s, _, _, _, ha⟩ := (mem_sfxElems xs1 0 a b).mp hmx
      obtain ⟨j', v', s', _, _, _, hc⟩ := (mem_sfxElems xs2 0 c d).mp hmy
      simp only [Prod.mk.injEq] at hD ⊢
      refine ⟨?_, hD.2⟩
      rw [ha, hc] at hD ⊢
      rw [List.cons_append, List.cons_append, dropLeadingDot_bracket,
        dropLeadingDot_bracket] at hD
      exact hD.1

/-- Root flattening assigns pairwise distinct addresses. -/
theorem flatten_root_nodup (d : Value) (hwf : wfDoc d = true) :
    ((flatten d "").map Prod.fst).Nodup := by
  rw [flatten_root d hwf, List.map_map, List.map_map]
  rw [show ((Prod.fst ∘ (fun p : List Char × Scalar => (String.mk p.1, p.2))) ∘
      (fun p : List Char × Scalar => (dropLeadingDot p.1, p.2))) =
      ((fun s => String.mk (dropLeadingDot s)) ∘ Prod.fst) from rfl, ← List.map_map]
  refine List.Nodup.map_on ?_ (sfx_nodup d hwf)
  intro s1 hs1 s2 hs2 heq
  obtain ⟨⟨s1', sc1⟩, hm1, h1⟩ := List.mem_map.mp hs1
  obtain ⟨⟨s2', sc2⟩, hm2, h2⟩ := List.mem_map.mp hs2
  subst h1
  subst h2
  exact dropLeadingDot_inj_on d _ sc1 _ sc2 hm1 hm2 (congrArg String.data heq)

/-- C3 (corrected): on documents whose mappings have nonempty,
separator-free, pairwise-distinct keys and which contain no empty
mapping or sequence, the flattener is lossless — each leaf gets exactly
one address, the address list is duplicate-free, and the flattened map
determines the document, so re-nesting reconstructs it; with arbitrary
key strings this fails, as a key may itself contain the address
separators. -/
theorem claim_C3 (d1 d2 : Value) (h1 : wfDoc d1 = true) (h2 : wfDoc d2 = true) :
    (flatten d1 "" = flatten d2 "" → d1 = d2) ∧
      ((flatten d1 "").map Prod.fst).Nodup :=
  ⟨fun heq => sfx_inj d1 d2 h1 h2
      (sfx_eq_of_root d1 d2 h1 h2 (flatten_root_D d1 d2 h1 h2 heq)),
    flatten_root_nodup d1 h1⟩

/-- C3 counterexample: the mapping `{"a.b": 1}` and the nested mapping
`{"a": {"b": 1}}` contain no empty containers, yet flatten to the same
map, so re-nesting the flattened map cannot reconstruct both. -/
theorem claim_C3_counterexample :
    noEmpty (Value.dict [("a.b", Value.scalar (Scalar.int 1))]) = true ∧
    noEmpty (Value.dict [("a", Value.dict [("b", Value.scalar (Scalar.int 1))])]) = true ∧
    flatten (Value.dict [("a.b", Value.scalar (Scalar.int 1))]) "" =
      flatten (Value.dict [("a", Value.dict [("b", Value.scalar (Scalar.int 1))])]) "" ∧
    ¬ (Value.dict [("a.b", Value.scalar (Scalar.int 1))] =
      Value.dict [("a", Value.dict [("b", Value.scalar (Scalar.int 1))])]) :=
  ⟨by decide, by decide, by decide, by decide⟩

/-- Witness for the C3 theorem at a concrete clean document. -/
theorem claim_C3_witness :
    wfDoc (Value.dict [("a", Value.scalar (Scalar.int 1)),
      ("b", Value.list [Value.scalar Scalar.null])]) = true ∧
    ((flatten (Value.dict [("a", Value.scalar (Scalar.int 1)),
        ("b", Value.list [Value.scalar Scalar.null])]) "" =
      flatten (Value.dict [("a", Value.scalar (Scalar.int 1)),
        ("b", Value.list [Value.scalar Scalar.null])]) "" →
      Value.dict [("a", Value.scalar (Scalar.int 1)),
        ("b", Value.list [Value.scalar Scalar.null])] =
      Value.dict [("a", Value.scalar (Scalar.int 1)),
        ("b", Value.list [Value.scalar Scalar.null])]) ∧
    ((flatten (Value.dict [("a", Value.scalar (Scalar.int 1)),
        ("b", Value.list [Value.scalar Scalar.null])]) "").map Prod.fst).Nodup) :=
  ⟨by decide, claim_C3 _ _ (by decide) (by decide)⟩
